import Mathlib

/-! # OWS request mediation of gisquick-server (`internal/server/project.go`)

A shallow embedding of `handleMapOws` (the OWS gateway handler) and of its
`rewriteGetCapabilities` response hook, followed by theorems about them.

Go strings are byte sequences, so a string is a `List` of bytes.  Calls into
collaborators (`s.projects`, `s.auth`) are results supplied by an environment;
calls into the Go standard library are either modelled here (`net/url`,
`strings`, `html.EscapeString`, the one regular expression) or taken as
functions of the environment (`xml.Unmarshal`, `filepath.Join`,
`strings.EqualFold`, `html.UnescapeString`).
-/

set_option autoImplicit false

namespace Gisquick

/-! ## Strings -/

/-- One byte of a Go string. -/
abbrev Byte := Fin 256

/-- A Go `string` (or `[]byte`): a sequence of bytes. -/
abbrev Str := List Byte

/-- The bytes of an ASCII literal. -/
def str (s : String) : Str := s.data.map (fun c => Fin.ofNat c.toNat)

/-- Go `strings.Split(s, sep)` for a one-byte separator: never empty. -/
def splitByte (sep : Byte) : Str → List Str
  | [] => [[]]
  | c :: cs =>
    if c = sep then [] :: splitByte sep cs
    else
      match splitByte sep cs with
      | [] => [[c]]
      | p :: ps => (c :: p) :: ps

/-- Go `parts[len(parts)-1]` on the result of `strings.Split`. -/
def lastPart (parts : List Str) : Str := parts.getLastD []

/-! ## Data model -/

/-- Go error values, as far as the handler tells them apart. -/
inductive Err where
  | ErrProjectNotExists
  | other (msg : Str)
  | wrap (ctx : Str) (e : Err)
  deriving DecidableEq, Repr

/-- Go `errors.Is(err, target)` along the `%w` chain. -/
def Err.is : Err → Err → Bool
  | .wrap ctx e, target => decide (Err.wrap ctx e = target) || Err.is e target
  | e, target => decide (e = target)

/-- The struct `OwsRequestParams` bound from the query string. -/
structure OwsRequestParams where
  Service : Str
  Request : Str
  deriving DecidableEq, Repr

/-- Modelled from the spec: `domain.LayerPermission` (declared outside src),
"LayerPermission: {insert: bool, update: bool, delete: bool}". -/
structure LayerPermission where
  Insert : Bool
  Update : Bool
  Delete : Bool
  deriving DecidableEq, Repr

/-- Modelled from the spec: the acting identity returned by `s.auth.GetUser`
(`domain.User`, declared outside src). -/
structure User where
  Username : Str
  deriving DecidableEq, Repr

/-- Modelled from the spec: `domain.ProjectSettings` (declared outside src) as the
settings snapshot: the layer IDs it knows, each with the permission it gives an
identity. -/
structure ProjectSettings where
  Layers : List (Str × (User → LayerPermission))

/-- Modelled from the spec: the method `settings.UserLayerPermissions` (declared
outside src): "resolve(user, layerID) -> LayerPermission. Pure function of the
loaded settings snapshot ... Unknown layer ID yields a fully-denying permission
(no insert/update/delete) rather than an error". -/
def ProjectSettings.UserLayerPermissions (s : ProjectSettings) (user : User) (id : Str) :
    LayerPermission :=
  match s.Layers.lookup id with
  | some f => f user
  | none => { Insert := false, Update := false, Delete := false }

/-- The result of `s.projects.GetProjectInfo`, as far as the handler reads it. -/
structure ProjectInfo where
  State : Str
  QgisFile : Str
  deriving DecidableEq, Repr

/-- The result of `s.projects.GetLayersData`: the Go map `LayerNameToID`. -/
structure LayersData where
  LayerNameToID : List (Str × Str)
  deriving DecidableEq, Repr

/-- Modelled from the spec: an element of `Transaction.Updates` (and of `Deletes`),
"{typeName: string}"; the type `Transaction` is declared outside src. -/
structure TypedOp where
  TypeName : Str
  deriving DecidableEq, Repr

/-- Modelled from the spec: an inserted object, "{elementName: string}", read by the
handler as `o.XMLName.Local`. -/
structure InsertObject where
  XMLNameLocal : Str
  deriving DecidableEq, Repr

/-- Modelled from the spec: an element of `Transaction.Inserts`,
"{objects: ordered sequence of {elementName: string}}". -/
structure InsertOp where
  Objects : List InsertObject
  deriving DecidableEq, Repr

/-- Modelled from the spec: the type `Transaction` (declared outside src): "updates",
"inserts" and "deletes", each an ordered sequence. -/
structure Transaction where
  Updates : List TypedOp
  Inserts : List InsertOp
  Deletes : List TypedOp
  deriving DecidableEq, Repr

/-- The body of a request: the inbound single-read stream, or the buffer
`ioutil.NopCloser(bytes.NewBuffer(bodyBytes))` the handler installs after reading. -/
inductive Body where
  | stream (bytes : Str)
  | buffer (bytes : Str)
  deriving DecidableEq, Repr

/-- The bytes a reader of the body gets. -/
def Body.bytes : Body → Str
  | .stream b => b
  | .buffer b => b

/-- The fields of `*http.Request` the handler touches. -/
structure Request where
  Path : Str
  RawQuery : Str
  Header : List (Str × Str)
  Body : Body
  deriving DecidableEq, Repr

/-- The `echo.Context` of a call: the route parameters and the request. -/
structure Context where
  ParamUser : Str
  ParamName : Str
  Request : Request
  deriving DecidableEq, Repr

/-- The two `httputil.ReverseProxy` values built by `handleMapOws`. -/
inductive Proxy where
  | reverseProxy
  | capabilitiesProxy
  deriving DecidableEq, Repr

/-- What a call of the handler does: return an `*echo.HTTPError`, return another
error, or hand the request to a proxy and return nil. -/
inductive Result where
  | httpError (code : Nat) (msg : Str)
  | error (e : Err)
  | served (p : Proxy) (req : Request)
  deriving DecidableEq, Repr

/-- Go `echo.ErrNotFound`. -/
def ErrNotFound : Result := .httpError 404 (str "Not Found")

/-- Go `echo.ErrForbidden`. -/
def ErrForbidden : Result := .httpError 403 (str "Forbidden")

/-- The status echo's `DefaultHTTPErrorHandler` answers with: the code of an
`*echo.HTTPError`, 500 for any other error; a served request has the proxy's answer. -/
def Result.status : Result → Option Nat
  | .httpError code _ => some code
  | .error _ => some 500
  | .served _ _ => none

/-- The request handed to a proxy, if any. -/
def Result.forwarded : Result → Option Request
  | .served _ req => some req
  | _ => none

/-- The collaborators and library functions a call of the handler uses. -/
structure Env where
  /-- The result of `(&echo.DefaultBinder{}).BindQueryParams(c, params)`, a function of the query string. -/
  BindQueryParams : Str → Except Err OwsRequestParams
  GetProjectInfo : Str → Except Err ProjectInfo
  GetSettings : Str → Except Err ProjectSettings
  GetLayersData : Str → Except Err LayersData
  /-- The result of `s.auth.GetUser(c)` (its error is dropped), a function of the headers. -/
  GetUser : List (Str × Str) → User
  /-- Go `xml.Unmarshal(bodyBytes, &wfsTransaction)`. -/
  xmlUnmarshal : Str → Except Err Transaction
  /-- Go `filepath.Join`. -/
  filepathJoin : List Str → Str
  /-- Go `strings.EqualFold`. -/
  EqualFold : Str → Str → Bool

/-! ## `net/url`: escaping and query values -/

/-- The byte of an ASCII character. -/
def B (c : Char) : Byte := Fin.ofNat c.toNat

/-- Go `encoding` of `net/url`: which part of a URL a string is escaped for. -/
inductive Mode where
  | encodePath
  | encodePathSegment
  | encodeHost
  | encodeZone
  | encodeUserPassword
  | encodeQueryComponent
  | encodeFragment
  deriving DecidableEq, Repr

/-- ASCII letters and digits. -/
def isAlnum (c : Byte) : Bool :=
  (97 ≤ c.val && c.val ≤ 122) || (65 ≤ c.val && c.val ≤ 90) || (48 ≤ c.val && c.val ≤ 57)

/-- Go `shouldEscape(c, mode)` of `net/url`. -/
def shouldEscape (c : Byte) (mode : Mode) : Bool :=
  if isAlnum c then false
  else if (mode = .encodeHost ∨ mode = .encodeZone) ∧
      c ∈ [B '!', B '$', B '&', B '\'', B '(', B ')', B '*', B '+', B ',', B ';', B '=',
        B ':', B '[', B ']', B '<', B '>', B '"'] then false
  else if c ∈ [B '-', B '_', B '.', B '~'] then false
  else if c ∈ [B '$', B '&', B '+', B ',', B '/', B ':', B ';', B '=', B '?', B '@'] then
    match mode with
    | .encodePath => c = B '?'
    | .encodePathSegment => c = B '/' ∨ c = B ';' ∨ c = B ',' ∨ c = B '?'
    | .encodeUserPassword => c = B '@' ∨ c = B '/' ∨ c = B '?' ∨ c = B ':'
    | .encodeQueryComponent => true
    | .encodeFragment => false
    | _ => true
  else if mode = .encodeFragment ∧ c ∈ [B '!', B '(', B ')', B '*'] then false
  else true

/-- The upper-case hexadecimal digit of a value below 16. -/
def upperhex (n : Nat) : Byte := if n < 10 then Fin.ofNat (48 + n) else Fin.ofNat (55 + n)

/-- Go `ishex`. -/
def ishex (c : Byte) : Bool :=
  (48 ≤ c.val && c.val ≤ 57) || (97 ≤ c.val && c.val ≤ 102) || (65 ≤ c.val && c.val ≤ 70)

/-- Go `unhex`. -/
def unhex (c : Byte) : Nat :=
  if 48 ≤ c.val ∧ c.val ≤ 57 then c.val - 48
  else if 97 ≤ c.val ∧ c.val ≤ 102 then c.val - 97 + 10
  else if 65 ≤ c.val ∧ c.val ≤ 70 then c.val - 65 + 10
  else 0

/-- Go `escape(s, mode)` of `net/url`, one byte at a time. -/
def escapeByte (mode : Mode) (c : Byte) : Str :=
  if shouldEscape c mode then
    if c = B ' ' ∧ mode = .encodeQueryComponent then [B '+']
    else [B '%', upperhex (c.val / 16), upperhex (c.val % 16)]
  else [c]

/-- Go `escape(s, mode)` of `net/url`. -/
def escape (mode : Mode) (s : Str) : Str := s.flatMap (escapeByte mode)

/-- Go `unescape(s, mode)` of `net/url`; `none` is an `EscapeError` or
`InvalidHostError`. -/
def unescape (mode : Mode) : Str → Option Str
  | [] => some []
  | c :: cs =>
    if c = B '%' then
      match cs with
      | h :: l :: rest =>
        if ishex h ∧ ishex l then
          if mode = .encodeHost ∧ unhex h < 8 ∧ ¬ (h = B '2' ∧ l = B '5') then none
          else if mode = .encodeZone ∧ ¬ (h = B '2' ∧ l = B '5') ∧
              unhex h * 16 + unhex l ≠ 32 ∧
              shouldEscape (Fin.ofNat (unhex h * 16 + unhex l)) .encodeHost then none
          else (unescape mode rest).map (fun r => Fin.ofNat (unhex h * 16 + unhex l) :: r)
        else none
      | _ => none
    else if c = B '+' ∧ mode = .encodeQueryComponent then
      (unescape mode cs).map (fun r => B ' ' :: r)
    else if (mode = .encodeHost ∨ mode = .encodeZone) ∧ c.val < 128 ∧
        shouldEscape c .encodeHost then none
    else (unescape mode cs).map (fun r => c :: r)

/-- Go `url.QueryEscape`. -/
def QueryEscape (s : Str) : Str := escape .encodeQueryComponent s

/-- Go `url.QueryUnescape`. -/
def QueryUnescape (s : Str) : Option Str := unescape .encodeQueryComponent s

/-- Go `strings.Cut(s, sep)` for a one-byte separator, without the found flag: the
text before the first separator and the text after it. -/
def cutByte (sep : Byte) : Str → Str × Str
  | [] => ([], [])
  | c :: cs => if c = sep then ([], cs) else ((cutByte sep cs).1.cons c, (cutByte sep cs).2)

/-- Go `url.Values`, a `map[string][]string`. -/
abbrev Values := List (Str × List Str)

/-- Go `m[key] = append(m[key], value)`. -/
def Values.add : Values → Str → Str → Values
  | [], k, v => [(k, [v])]
  | (k', vs) :: r, k, v => if k' = k then (k', vs ++ [v]) :: r else (k', vs) :: Values.add r k v

/-- Go `v.Set(key, value)`: `v[key] = []string{value}`. -/
def Values.Set (m : Values) (k v : Str) : Values := (k, [v]) :: m.filter (fun e => e.1 ≠ k)

/-- Go `v.Del(key)`: `delete(v, key)`. -/
def Values.Del (m : Values) (k : Str) : Values := m.filter (fun e => e.1 ≠ k)

/-- One step of the loop of Go `parseQuery`, on the text between two `&`. -/
def parseQueryStep (m : Values) (seg : Str) : Values :=
  if B ';' ∈ seg then m
  else if seg = [] then m
  else
    match QueryUnescape (cutByte (B '=') seg).1, QueryUnescape (cutByte (B '=') seg).2 with
    | some key, some value => m.add key value
    | _, _ => m

/-- Go `u.Query()`: `ParseQuery(u.RawQuery)` with its error dropped. -/
def Query (rawQuery : Str) : Values := (splitByte (B '&') rawQuery).foldl parseQueryStep []

/-- Bytewise lexicographic order of Go strings, `a <= b`. -/
def strLe : Str → Str → Bool
  | [], _ => true
  | _ :: _, [] => false
  | a :: as, b :: bs => a.val < b.val || (a = b && strLe as bs)

/-- Go `strings.Join(parts, sep)` for a one-byte separator. -/
def joinByte (sep : Byte) : List Str → Str
  | [] => []
  | [p] => p
  | p :: q :: ps => p ++ sep :: joinByte sep (q :: ps)

/-- The `key=value` texts written by Go `v.Encode()`, keys sorted. -/
def encodeSegments (m : Values) : List Str :=
  (m.insertionSort (fun a b => strLe a.1 b.1 = true)).flatMap
    (fun e => e.2.map (fun v => QueryEscape e.1 ++ B '=' :: QueryEscape v))

/-- Go `v.Encode()`. -/
def Values.Encode (m : Values) : Str := joinByte (B '&') (encodeSegments m)

/-! ## The handler `handleMapOws` -/

/-- Go `http.Header.Get` for a key in canonical form. -/
def headerGet (h : List (Str × Str)) (k : Str) : Str := (h.lookup k).getD []

/-- Go `http.Header.Set` for a key in canonical form. -/
def headerSet (h : List (Str × Str)) (k v : Str) : List (Str × Str) :=
  (k, v) :: h.filter (fun e => e.1 ≠ k)

/-- The per-request Go map `perms`, from layer ID to permission. -/
abbrev Perms := List (Str × LayerPermission)

/-- `getProjectName`: `filepath.Join(c.Param("user"), c.Param("name"))`. -/
def getProjectName (env : Env) (c : Context) : Str :=
  env.filepathJoin [c.ParamUser, c.ParamName]

/-- The layer ID the closure `getLayerPermissions` looks a type name up under:
`layersData.LayerNameToID[lname]` for the last `:`-separated part, the zero value
`""` when the name is no key. -/
def layerID (layersData : LayersData) (typeName : Str) : Str :=
  (layersData.LayerNameToID.lookup (lastPart (splitByte (B ':') typeName))).getD []

/-- The closure `getLayerPermissions` of the handler, with the map `perms` it reads
and writes passed in and out. -/
def getLayerPermissions (layersData : LayersData) (settings : ProjectSettings) (user : User)
    (perms : Perms) (typeName : Str) : LayerPermission × Perms :=
  let id := layerID layersData typeName
  match perms.lookup id with
  | some perm => (perm, perms)
  | none =>
    let perm := settings.UserLayerPermissions user id
    (perm, (id, perm) :: perms)

/-- The loop over `wfsTransaction.Updates`: `false` when it returns `echo.ErrForbidden`. -/
def checkUpdates (layersData : LayersData) (settings : ProjectSettings) (user : User) :
    List TypedOp → Perms → Bool × Perms
  | [], perms => (true, perms)
  | u :: us, perms =>
    let r := getLayerPermissions layersData settings user perms u.TypeName
    if !r.1.Update then (false, r.2) else checkUpdates layersData settings user us r.2

/-- The inner loop over `i.Objects` of one insert. -/
def checkObjects (layersData : LayersData) (settings : ProjectSettings) (user : User) :
    List InsertObject → Perms → Bool × Perms
  | [], perms => (true, perms)
  | o :: os, perms =>
    let r := getLayerPermissions layersData settings user perms o.XMLNameLocal
    if !r.1.Insert then (false, r.2) else checkObjects layersData settings user os r.2

/-- The loop over `wfsTransaction.Inserts`. -/
def checkInserts (layersData : LayersData) (settings : ProjectSettings) (user : User) :
    List InsertOp → Perms → Bool × Perms
  | [], perms => (true, perms)
  | i :: is, perms =>
    let r := checkObjects layersData settings user i.Objects perms
    if !r.1 then (false, r.2) else checkInserts layersData settings user is r.2

/-- The loop over `wfsTransaction.Deletes`. -/
def checkDeletes (layersData : LayersData) (settings : ProjectSettings) (user : User) :
    List TypedOp → Perms → Bool × Perms
  | [], perms => (true, perms)
  | d :: ds, perms =>
    let r := getLayerPermissions layersData settings user perms d.TypeName
    if !r.1.Delete then (false, r.2) else checkDeletes layersData settings user ds r.2

/-- The three loops of the handler in their order: updates, inserts, deletes. -/
def checkTransaction (layersData : LayersData) (settings : ProjectSettings) (user : User)
    (tx : Transaction) (perms : Perms) : Bool × Perms :=
  let r1 := checkUpdates layersData settings user tx.Updates perms
  if !r1.1 then r1
  else
    let r2 := checkInserts layersData settings user tx.Inserts r1.2
    if !r2.1 then r2 else checkDeletes layersData settings user tx.Deletes r2.2

/-- A call of the handler: what it returns or serves, and the local map `perms` when
it returns. -/
structure Run where
  result : Result
  perms : Perms

/-- The function returned by `handleMapOws`.  The body is read in full
(`ioutil.ReadAll`, whose error the source drops). -/
def handleMapOws (env : Env) (c : Context) : Run :=
  match env.BindQueryParams c.Request.RawQuery with
  | .error _ => ⟨.httpError 400 (str "Invalid query parameters"), []⟩
  | .ok params =>
    let projectName := getProjectName env c
    match env.GetProjectInfo projectName with
    | .error err =>
      if err.is .ErrProjectNotExists then ⟨ErrNotFound, []⟩ else ⟨.error err, []⟩
    | .ok pInfo =>
      match env.GetSettings projectName with
      | .error err => ⟨.error (.wrap (str "getting project settings") err), []⟩
      | .ok settings =>
        let owsProject := env.filepathJoin [str "/publish", projectName, pInfo.QgisFile]
        let query := Query c.Request.RawQuery
        let req : Request := { c.Request with RawQuery := (query.Set (str "MAP") owsProject).Encode }
        if params.Service = str "WMS" ∧ env.EqualFold params.Request (str "GetCapabilities") then
          ⟨.served .capabilitiesProxy
            { req with Header := headerSet req.Header (str "X-Ows-Url") req.Path }, []⟩
        else
          let user := env.GetUser req.Header
          if params.Service = str "WFS" ∧ params.Request = [] then
            match env.GetLayersData projectName with
            | .error err => ⟨.error (.wrap (str "getting layer data") err), []⟩
            | .ok layersData =>
              let bodyBytes := req.Body.bytes
              let req : Request := { req with Body := .buffer bodyBytes }
              match env.xmlUnmarshal bodyBytes with
              | .error err => ⟨.error err, []⟩
              | .ok wfsTransaction =>
                let r := checkTransaction layersData settings user wfsTransaction []
                if !r.1 then ⟨ErrForbidden, r.2⟩ else ⟨.served .reverseProxy req, r.2⟩
          else ⟨.served .reverseProxy req, []⟩

/-! ## A sample project, for the examples -/

/-- Go `v.Get(key)`: the first value of the key, or `""`. -/
def Values.Get (m : Values) (k : Str) : Str := ((m.lookup k).getD []).headD []

/-- ASCII lower case of a byte. -/
def lowerByte (c : Byte) : Byte := if 65 ≤ c.val ∧ c.val ≤ 90 then Fin.ofNat (c.val + 32) else c

/-- The transaction of the example `<Transaction><Update typeName="ns:Roads"/></Transaction>`. -/
def updateRoads : Transaction :=
  { Updates := [{ TypeName := str "ns:Roads" }], Inserts := [], Deletes := [] }

/-- The transaction of the example
`<Transaction><Insert><myns:Parcels/></Insert><Delete typeName="Parcels"/></Transaction>`. -/
def insertDeleteParcels : Transaction :=
  { Updates := [], Inserts := [{ Objects := [{ XMLNameLocal := str "Parcels" }] }],
    Deletes := [{ TypeName := str "Parcels" }] }

/-- The example project `alice/parks`: the identity may write layer `Parcels` and may
not write layer `Roads`; the library functions are given on the inputs of the examples
(`xmlUnmarshal` decodes the two documents above and fails on any other body,
`filepathJoin` joins clean elements, `EqualFold` folds ASCII). -/
def sampleEnv : Env where
  BindQueryParams := fun q =>
    .ok { Service := (Query q).Get (str "SERVICE"), Request := (Query q).Get (str "REQUEST") }
  GetProjectInfo := fun name =>
    if name = str "alice/parks" then .ok { State := str "published", QgisFile := str "parks.qgs" }
    else .error .ErrProjectNotExists
  GetSettings := fun _ =>
    .ok { Layers := [(str "roads_1", fun _ => { Insert := false, Update := false, Delete := false }),
                     (str "parcels_2", fun _ => { Insert := true, Update := true, Delete := true })] }
  GetLayersData := fun _ =>
    .ok { LayerNameToID := [(str "Roads", str "roads_1"), (str "Parcels", str "parcels_2")] }
  GetUser := fun _ => { Username := str "alice" }
  xmlUnmarshal := fun body =>
    if body = str "<Transaction><Update typeName=\"ns:Roads\"/></Transaction>" then .ok updateRoads
    else if body =
        str "<Transaction><Insert><myns:Parcels/></Insert><Delete typeName=\"Parcels\"/></Transaction>"
      then .ok insertDeleteParcels
    else .error (.other (str "XML syntax error"))
  filepathJoin := fun parts => joinByte (B '/') (parts.filter (fun p => p ≠ []))
  EqualFold := fun a b => a.map lowerByte = b.map lowerByte

/-- A request to `/api/map/ows/alice/parks` with the given query string and body. -/
def sampleContext (rawQuery body : Str) : Context :=
  { ParamUser := str "alice", ParamName := str "parks",
    Request := { Path := str "/api/map/ows/alice/parks", RawQuery := rawQuery, Header := [],
                 Body := .stream body } }

/-! ## Auxiliary notions for the statements -/

/-- The `(key, value)` pairs `v.Encode()` writes, in its order. -/
def pairsOf (m : Values) : List (Str × Str) :=
  (m.insertionSort (fun a b => strLe a.1 b.1 = true)).flatMap
    (fun e => e.2.map (fun v => (e.1, v)))

/-- The values a list of pairs gives a key, in order. -/
def valsOf (k : Str) (pairs : List (Str × Str)) : List Str :=
  (pairs.filter (fun kv => kv.1 = k)).map (fun kv => kv.2)

/-! ## `net/url`: `Parse` and `String` -/

/-- Go `url.Userinfo`. -/
structure Userinfo where
  username : Str
  password : Str
  passwordSet : Bool
  deriving DecidableEq, Repr

/-- Go `url.URL`. -/
structure URL where
  Scheme : Str
  Opaque : Str
  User : Option Userinfo
  Host : Str
  Path : Str
  RawPath : Str
  OmitHost : Bool
  ForceQuery : Bool
  RawQuery : Str
  Fragment : Str
  RawFragment : Str
  deriving DecidableEq, Repr

/-- Go `stringContainsCTLByte`. -/
def stringContainsCTLByte (s : Str) : Bool := s.any (fun b => b.val < 32 || b.val = 127)

/-- ASCII letters. -/
def isAlpha (c : Byte) : Bool := (97 ≤ c.val && c.val ≤ 122) || (65 ≤ c.val && c.val ≤ 90)

/-- ASCII digits. -/
def isDigit (c : Byte) : Bool := 48 ≤ c.val && c.val ≤ 57

/-- The scan of Go `getScheme` from index `i`, over the bytes not yet seen and those
seen (reversed): `none` is the error "missing protocol scheme". -/
def getSchemeAux (rawURL : Str) : Str → Str → Option (Str × Str)
  | [], _ => some ([], rawURL)
  | c :: cs, seen =>
    if isAlpha c then getSchemeAux rawURL cs (c :: seen)
    else if isDigit c ∨ c = B '+' ∨ c = B '-' ∨ c = B '.' then
      if seen = [] then some ([], rawURL) else getSchemeAux rawURL cs (c :: seen)
    else if c = B ':' then
      if seen = [] then none else some (seen.reverse, cs)
    else some ([], rawURL)

/-- Go `getScheme(rawURL)`: the scheme and the rest. -/
def getScheme (rawURL : Str) : Option (Str × Str) := getSchemeAux rawURL rawURL []

/-- Go `strings.ToLower` on the ASCII bytes of a scheme. -/
def toLower (s : Str) : Str := s.map lowerByte

/-- The text before the last `sep` and the text after it, if `sep` occurs
(Go `strings.LastIndex`). -/
def cutLast (sep : Byte) : Str → Option (Str × Str)
  | [] => none
  | c :: cs =>
    match cutLast sep cs with
    | some (a, b) => some (c :: a, b)
    | none => if c = sep then some ([], cs) else none

/-- The text before the first occurrence of `pat` and the text from it on, if `pat`
occurs (Go `strings.Index`). -/
def cutAt (pat : Str) : Str → Option (Str × Str)
  | [] => if pat = [] then some ([], []) else none
  | c :: cs =>
    if pat.isPrefixOf (c :: cs) then some ([], c :: cs)
    else (cutAt pat cs).map (fun r => (c :: r.1, r.2))

/-- Go `validOptionalPort`. -/
def validOptionalPort : Str → Bool
  | [] => true
  | c :: cs => c = B ':' && cs.all isDigit

/-- Go `validUserinfo`. -/
def validUserinfo (s : Str) : Bool :=
  s.all (fun c => isAlnum c ||
    decide (c ∈ [B '-', B '.', B '_', B ':', B '~', B '!', B '$', B '&', B '\'', B '(', B ')',
      B '*', B '+', B ',', B ';', B '=', B '%', B '@']))

/-- Go `parseHost`. -/
def parseHost (host : Str) : Option Str :=
  if (str "[").isPrefixOf host then
    match cutLast (B ']') host with
    | none => none
    | some (before, colonPort) =>
      if !validOptionalPort colonPort then none
      else
        match cutAt (str "%25") before with
        | some (h1, zoneRest) =>
          match unescape .encodeHost h1, unescape .encodeZone zoneRest,
              unescape .encodeHost (B ']' :: colonPort) with
          | some host1, some host2, some host3 => some (host1 ++ host2 ++ host3)
          | _, _, _ => none
        | none => unescape .encodeHost host
  else
    match cutLast (B ':') host with
    | some (_, port) =>
      if !validOptionalPort (B ':' :: port) then none else unescape .encodeHost host
    | none => unescape .encodeHost host

/-- Go `parseAuthority`. -/
def parseAuthority (authority : Str) : Option (Option Userinfo × Str) :=
  match cutLast (B '@') authority with
  | none => (parseHost authority).map (fun h => (none, h))
  | some (userinfo, hostpart) =>
    match parseHost hostpart with
    | none => none
    | some host =>
      if !validUserinfo userinfo then none
      else if B ':' ∉ userinfo then
        (unescape .encodeUserPassword userinfo).map
          (fun u => (some { username := u, password := [], passwordSet := false }, host))
      else
        match unescape .encodeUserPassword (cutByte (B ':') userinfo).1,
            unescape .encodeUserPassword (cutByte (B ':') userinfo).2 with
        | some username, some password =>
          some (some { username := username, password := password, passwordSet := true }, host)
        | _, _ => none

/-- Go `(*URL).setPath`: the fields `Path` and `RawPath`. -/
def setPath (p : Str) : Option (Str × Str) :=
  (unescape .encodePath p).map
    (fun path => (path, if p = escape .encodePath path then [] else p))

/-- Go `(*URL).setFragment`: the fields `Fragment` and `RawFragment`. -/
def setFragment (f : Str) : Option (Str × Str) :=
  (unescape .encodeFragment f).map
    (fun frag => (frag, if f = escape .encodeFragment frag then [] else f))

/-- The URL with every field empty, Go `new(URL)`. -/
def emptyURL : URL :=
  { Scheme := [], Opaque := [], User := none, Host := [], Path := [], RawPath := [],
    OmitHost := false, ForceQuery := false, RawQuery := [], Fragment := [], RawFragment := [] }

/-- Go `parse(rawURL, false)`; `none` is an error. -/
def parseNoFragment (rawURL : Str) : Option URL :=
  if stringContainsCTLByte rawURL then none
  else if rawURL = str "*" then some { emptyURL with Path := str "*" }
  else
    match getScheme rawURL with
    | none => none
    | some (scheme, rest0) =>
      let force : Bool := rest0.getLast? = some (B '?') && rest0.count (B '?') = 1
      let rest : Str := if force then rest0.dropLast else (cutByte (B '?') rest0).1
      let rawQuery : Str := if force then [] else (cutByte (B '?') rest0).2
      let url : URL :=
        { emptyURL with Scheme := toLower scheme, ForceQuery := force, RawQuery := rawQuery }
      if ¬ (str "/").isPrefixOf rest ∧ url.Scheme ≠ [] then some { url with Opaque := rest }
      else if ¬ (str "/").isPrefixOf rest ∧ B ':' ∈ (cutByte (B '/') rest).1 then none
      else if (url.Scheme ≠ [] ∨ ¬ (str "///").isPrefixOf rest) ∧ (str "//").isPrefixOf rest then
        let authority : Str := (cutByte (B '/') (rest.drop 2)).1
        let rest' : Str := (rest.drop 2).drop authority.length
        match parseAuthority authority with
        | none => none
        | some (user, host) =>
          (setPath rest').map
            (fun p => { url with User := user, Host := host, Path := p.1, RawPath := p.2 })
      else
        (setPath rest).map
          (fun p =>
            { url with
              OmitHost := decide (url.Scheme ≠ []) && (str "/").isPrefixOf rest
              Path := p.1, RawPath := p.2 })

/-- Go `url.Parse(rawURL)`; `none` is an error (the returned `*URL` is nil). -/
def Parse (rawURL : Str) : Option URL :=
  match parseNoFragment (cutByte (B '#') rawURL).1 with
  | none => none
  | some url =>
    if (cutByte (B '#') rawURL).2 = [] then some url
    else
      (setFragment (cutByte (B '#') rawURL).2).map
        (fun f => { url with Fragment := f.1, RawFragment := f.2 })

/-- Go `validEncoded(s, mode)`. -/
def validEncoded (s : Str) (mode : Mode) : Bool :=
  s.all (fun c =>
    decide (c ∈ [B '!', B '$', B '&', B '\'', B '(', B ')', B '*', B '+', B ',', B ';', B '=',
      B ':', B '@', B '[', B ']', B '%']) || !shouldEscape c mode)

/-- Go `(*URL).EscapedPath`. -/
def URL.EscapedPath (u : URL) : Str :=
  if u.RawPath ≠ [] ∧ validEncoded u.RawPath .encodePath ∧
      unescape .encodePath u.RawPath = some u.Path then u.RawPath
  else if u.Path = str "*" then str "*"
  else escape .encodePath u.Path

/-- Go `(*URL).EscapedFragment`. -/
def URL.EscapedFragment (u : URL) : Str :=
  if u.RawFragment ≠ [] ∧ validEncoded u.RawFragment .encodeFragment ∧
      unescape .encodeFragment u.RawFragment = some u.Fragment then u.RawFragment
  else escape .encodeFragment u.Fragment

/-- Go `(*Userinfo).String`. -/
def Userinfo.String (u : Userinfo) : Str :=
  escape .encodeUserPassword u.username ++
    (if u.passwordSet then B ':' :: escape .encodeUserPassword u.password else [])

/-- The scheme part written by Go `(*URL).String`. -/
def URL.schemePart (u : URL) : Str := if u.Scheme ≠ [] then u.Scheme ++ [B ':'] else []

/-- The authority part written by Go `(*URL).String`, from `//` to the host. -/
def URL.authorityPart (u : URL) : Str :=
  if u.Scheme ≠ [] ∨ u.Host ≠ [] ∨ u.User ≠ none then
    if u.OmitHost ∧ u.Host = [] ∧ u.User = none then []
    else
      (if u.Host ≠ [] ∨ u.Path ≠ [] ∨ u.User ≠ none then str "//" else []) ++
      (match u.User with
        | some ui => ui.String ++ [B '@']
        | none => []) ++
      (if u.Host ≠ [] then escape .encodeHost u.Host else [])
  else []

/-- The path part written by Go `(*URL).String`. -/
def URL.pathPart (u : URL) : Str :=
  let path := u.EscapedPath
  (if path ≠ [] ∧ path.head? ≠ some (B '/') ∧ u.Host ≠ [] then [B '/'] else []) ++
  (if u.schemePart ++ u.authorityPart = [] ∧ path.head? ≠ some (B '/') ∧
      B ':' ∈ (cutByte (B '/') path).1 then str "./" else []) ++
  path

/-- Go `(*URL).String`. -/
def URL.String (u : URL) : Str :=
  u.schemePart ++
  (if u.Opaque ≠ [] then u.Opaque else u.authorityPart ++ u.pathPart) ++
  (if u.ForceQuery ∨ u.RawQuery ≠ [] then B '?' :: u.RawQuery else []) ++
  (if u.Fragment ≠ [] then B '#' :: u.EscapedFragment else [])

/-! ## The response hook `rewriteGetCapabilities` -/

/-- Go `html.EscapeString`, one byte at a time. -/
def htmlEscapeByte (c : Byte) : Str :=
  if c = B '&' then str "&amp;"
  else if c = B '\'' then str "&#39;"
  else if c = B '<' then str "&lt;"
  else if c = B '>' then str "&gt;"
  else if c = B '"' then str "&#34;"
  else [c]

/-- Go `html.EscapeString`. -/
def htmlEscape (s : Str) : Str := s.flatMap htmlEscapeByte

/-- Go `strings.TrimPrefix`. -/
def TrimPrefix (s pre : Str) : Str := if pre.isPrefixOf s then s.drop pre.length else s

/-- Go `strings.TrimSuffix`. -/
def TrimSuffix (s suf : Str) : Str :=
  if suf.isSuffixOf s then s.take (s.length - suf.length) else s

/-- The text `[^"]+MAP=[^"]+` must find in a quote-free text from its second byte on:
`MAP=` followed by at least one byte. -/
def hasMAP : Str → Bool
  | [] => false
  | c :: cs => ((str "MAP=").isPrefixOf (c :: cs) && decide (4 < (c :: cs).length)) || hasMAP cs

/-- The text between `://` and the closing quote matches `[^"]+MAP=[^"]+`. -/
def bodyMatches (body : Str) : Bool :=
  match body with
  | [] => false
  | _ :: rest => hasMAP rest

/-- The match of the pattern `xlink:href="http[s]?://[^"]+MAP=[^"]+"` that starts at
the head of `d`, as its length: after the literal start, the text up to the next `"`
must exist and match `[^"]+MAP=[^"]+`. -/
def matchAt (d : Str) : Option Nat :=
  if (str "xlink:href=\"http").isPrefixOf d then
    let r := d.drop 16
    let k : Option Nat :=
      if (str "s://").isPrefixOf r then some 20
      else if (str "://").isPrefixOf r then some 19
      else none
    match k with
    | none => none
    | some n =>
      let body := (d.drop n).takeWhile (fun c => c ≠ B '"')
      if body.length < (d.drop n).length ∧ bodyMatches body then some (n + body.length + 1)
      else none
  else none

/-- The scan of Go `reg.FindAllString(doc, -1)`: leftmost matches, each search starting
where the last match ended; `skip` bytes of the last match are still to pass. -/
def findAllAux : Nat → Str → List Str
  | _, [] => []
  | k + 1, _ :: cs => findAllAux k cs
  | 0, c :: cs =>
    match matchAt (c :: cs) with
    | some n => (c :: cs).take n :: findAllAux (n - 1) cs
    | none => findAllAux 0 cs

/-- Go `reg.FindAllString(doc, -1)` for the pattern of `rewriteGetCapabilities`. -/
def FindAllString (doc : Str) : List Str := findAllAux 0 doc

/-- The scan of Go `strings.ReplaceAll(s, old, new)` for a non-empty `old`. -/
def replaceAllAux (old new : Str) : Nat → Str → Str
  | _, [] => []
  | k + 1, _ :: cs => replaceAllAux old new k cs
  | 0, c :: cs =>
    if old.isPrefixOf (c :: cs) then new ++ replaceAllAux old new (old.length - 1) cs
    else c :: replaceAllAux old new 0 cs

/-- Go `strings.ReplaceAll(s, old, new)` for a non-empty `old` (an empty `old`, which
no match is, leaves `s` as it is here). -/
def ReplaceAll (s old new : Str) : Str := if old = [] then s else replaceAllAux old new 0 s

/-- The string `replaced[match]` computed for a match, or `none` when `url.Parse`
fails: `parsed` is then nil and `parsed.Query()` panics. -/
def replacement (htmlUnescape : Str → Str) (owsPath : Str) (m : Str) : Option Str :=
  let u := TrimSuffix (TrimPrefix m (str "xlink:href=\"")) (str "\"")
  match Parse (htmlUnescape u) with
  | none => none
  | some parsed =>
    let params := (Query parsed.RawQuery).Del (str "MAP")
    let parsed' : URL := { parsed with Path := owsPath, RawQuery := params.Encode }
    some (str "xlink:href=\"" ++ htmlEscape parsed'.String ++ str "\"")

/-- The loop of `rewriteGetCapabilities` over the matches, with the document and the
map `replaced`; `none` is the panic. -/
def rewriteLoop (htmlUnescape : Str → Str) (owsPath : Str) :
    List Str → Str → List (Str × Str) → Option (Str × List (Str × Str))
  | [], doc, replaced => some (doc, replaced)
  | m :: ms, doc, replaced =>
    match replaced.lookup m with
    | some _ => rewriteLoop htmlUnescape owsPath ms doc replaced
    | none =>
      match replacement htmlUnescape owsPath m with
      | none => none
      | some r =>
        rewriteLoop htmlUnescape owsPath ms (ReplaceAll doc m r) ((m, r) :: replaced)

/-- The response body as `rewriteGetCapabilities` meets it: what `ioutil.ReadAll`
returns and what `Close` returns. -/
structure ResponseBody where
  read : Except Err Str
  close : Option Err

/-- What `rewriteGetCapabilities` leaves in the response: the new body,
`ContentLength`, and the header `Content-Length` (`strconv.Itoa`). -/
structure Rewritten where
  Body : Str
  ContentLength : Nat
  HeaderContentLength : Str
  deriving DecidableEq, Repr

/-- How a call of `rewriteGetCapabilities` ends. -/
inductive RewriteResult where
  | panic
  | error (e : Err)
  | ok (resp : Rewritten)
  deriving DecidableEq, Repr

/-- Go `strconv.Itoa` of a length. -/
def Itoa (n : Nat) : Str := (Nat.toDigits 10 n).map (fun c => Fin.ofNat c.toNat)

/-- The closure `rewriteGetCapabilities`: `owsPath` is the request header `X-Ows-Url`,
`htmlUnescape` is Go `html.UnescapeString`. -/
def rewriteGetCapabilities (htmlUnescape : Str → Str) (owsPath : Str) (respBody : ResponseBody) :
    RewriteResult :=
  match respBody.read with
  | .error err => .error err
  | .ok body =>
    match respBody.close with
    | some err => .error err
    | none =>
      match rewriteLoop htmlUnescape owsPath (FindAllString body) body [] with
      | none => .panic
      | some (doc, _) =>
        .ok { Body := doc, ContentLength := doc.length, HeaderContentLength := Itoa doc.length }

/-- The scan of `unescapeBasic`; `skip` bytes of the last reference are still to pass. -/
def unescapeBasicAux : Nat → Str → Str
  | _, [] => []
  | k + 1, _ :: cs => unescapeBasicAux k cs
  | 0, c :: cs =>
    if (str "&amp;").isPrefixOf (c :: cs) then B '&' :: unescapeBasicAux 4 cs
    else if (str "&lt;").isPrefixOf (c :: cs) then B '<' :: unescapeBasicAux 3 cs
    else if (str "&gt;").isPrefixOf (c :: cs) then B '>' :: unescapeBasicAux 3 cs
    else if (str "&#34;").isPrefixOf (c :: cs) then B '"' :: unescapeBasicAux 4 cs
    else if (str "&#39;").isPrefixOf (c :: cs) then B '\'' :: unescapeBasicAux 4 cs
    else c :: unescapeBasicAux 0 cs

/-- Go `html.UnescapeString` on the references `&amp;`, `&lt;`, `&gt;`, `&#34;` and
`&#39;` (those `html.EscapeString` writes); any other text is kept, which is what Go
does when no `&` starts a character reference. -/
def unescapeBasic (s : Str) : Str := unescapeBasicAux 0 s

/-- The language of the pattern `xlink:href="http[s]?://[^"]+MAP=[^"]+"`, stated from
the pattern: an optional `s`, then two non-empty quote-free texts around `MAP=`. -/
def Matches (m : Str) : Prop :=
  ∃ s a b : Str, (s = [] ∨ s = str "s") ∧ a ≠ [] ∧ b ≠ [] ∧ B '"' ∉ a ∧ B '"' ∉ b ∧
    m = str "xlink:href=\"http" ++ s ++ str "://" ++ a ++ str "MAP=" ++ b ++ str "\""

/-- No substring of the document matches the pattern. -/
def NoMatch (doc : Str) : Prop := ∀ pre m post : Str, doc = pre ++ m ++ post → ¬ Matches m

/-- The bytes `?` and `#`, which end the part of a URL before its query, do not occur. -/
def Clean (s : Str) : Prop := ∀ x ∈ s, x ≠ B '?' ∧ x ≠ B '#'

/-- The query component of a URL text: what stands between its first `?` and its
first `#`. -/
def rawQueryOf (s : Str) : Str := (cutByte (B '?') (cutByte (B '#') s).1).2

/-- The bytes a scheme is made of (Go `getScheme`). -/
def isSchemeByte (c : Byte) : Bool :=
  isAlpha c || isDigit c || decide (c = B '+') || decide (c = B '-') || decide (c = B '.')

/-! ## The match sites of a document -/

/-- One step of the scan for matches: a byte outside every match, or a match. -/
inductive Item where
  | gap (c : Byte)
  | site (s : Str)
  deriving DecidableEq, Repr

/-- The bytes of an item. -/
def Item.bytes : Item → Str
  | .gap c => [c]
  | .site s => s

/-- The item with `f` applied to a match. -/
def Item.map (f : Str → Str) : Item → Item
  | .gap c => .gap c
  | .site s => .site (f s)

/-- The text of a list of items. -/
def flatten (items : List Item) : Str := items.flatMap Item.bytes

/-- The scan of `FindAllString` as a list of items: the matches and the bytes
between them. -/
def scanAux : Nat → Str → List Item
  | _, [] => []
  | k + 1, _ :: cs => scanAux k cs
  | 0, c :: cs =>
    match matchAt (c :: cs) with
    | some n => .site ((c :: cs).take n) :: scanAux (n - 1) cs
    | none => .gap c :: scanAux 0 cs

/-- The document with `f m` written in place of every match `m` that
`FindAllString` finds, the bytes outside the matches kept. -/
def substAux (f : Str → Str) : Nat → Str → Str
  | _, [] => []
  | k + 1, _ :: cs => substAux f k cs
  | 0, c :: cs =>
    match matchAt (c :: cs) with
    | some n => f ((c :: cs).take n) ++ substAux f (n - 1) cs
    | none => c :: substAux f 0 cs

/-- The document with `f m` in place of every match `m`. -/
def substSites (f : Str → Str) (doc : Str) : Str := substAux f 0 doc

/-- The shape of a match and of the attribute written for it: `xlink:href="`, a
quote-free text, `"`. -/
def TwoQuote (X : Str) : Prop :=
  ∃ e : Str, B '"' ∉ e ∧ X = str "xlink:href=" ++ B '"' :: (e ++ [B '"'])

/-- The items come from a scan: no match starts at a gap byte, and every site is a match. -/
inductive Scanned : List Item → Prop where
  | nil : Scanned []
  | gap (c : Byte) (rest : List Item) : matchAt (c :: flatten rest) = none → Scanned rest →
      Scanned (.gap c :: rest)
  | site (s : Str) (rest : List Item) : Matches s → Scanned rest → Scanned (.site s :: rest)

/-- The matches among the items. -/
def sitesOf : List Item → List Str
  | [] => []
  | .gap _ :: rest => sitesOf rest
  | .site s :: rest => s :: sitesOf rest

/-- The string at a site while the loop runs: `replaced[m]` once `m` has been
handled, `m` itself before. -/
def current (replaced : List (Str × Str)) (m : Str) : Str := (replaced.lookup m).getD m

/-- The attribute the loop writes for a match: `replaced[m]` as `replacement` computes
it (the match itself where `url.Parse` fails, which the loop does not survive). -/
def written (htmlUnescape : Str → Str) (owsPath : Str) (m : Str) : Str :=
  (replacement htmlUnescape owsPath m).getD m

/-- The text `xlink:href="` every match and every written attribute starts with. -/
def xlinkHref : Str := str "xlink:href=" ++ [B '"']

/-- The cache holds only what the settings resolve. -/
def PermsOK (settings : ProjectSettings) (user : User) (perms : Perms) : Prop :=
  ∀ id p, perms.lookup id = some p → p = settings.UserLayerPermissions user id

/-- The permission the handler checks for a type name, resolved without the cache. -/
def resolved (ld : LayersData) (st : ProjectSettings) (user : User) (t : Str) : LayerPermission :=
  st.UserLayerPermissions user (layerID ld t)

/-- Every operation of the transaction has the permission it needs. -/
def Permitted (ld : LayersData) (st : ProjectSettings) (user : User) (tx : Transaction) : Prop :=
  (∀ u ∈ tx.Updates, (resolved ld st user u.TypeName).Update = true) ∧
  (∀ i ∈ tx.Inserts, ∀ o ∈ i.Objects, (resolved ld st user o.XMLNameLocal).Insert = true) ∧
  (∀ d ∈ tx.Deletes, (resolved ld st user d.TypeName).Delete = true)

/-- Some operation of the transaction lacks the permission it needs: the layer of an
update's type name lacks Update, the layer of an inserted object's element name lacks
Insert, or the layer of a delete's type name lacks Delete. -/
def Lacking (ld : LayersData) (st : ProjectSettings) (user : User) (tx : Transaction) : Prop :=
  (∃ u ∈ tx.Updates, (resolved ld st user u.TypeName).Update = false) ∨
  (∃ i ∈ tx.Inserts, ∃ o ∈ i.Objects, (resolved ld st user o.XMLNameLocal).Insert = false) ∨
  (∃ d ∈ tx.Deletes, (resolved ld st user d.TypeName).Delete = false)

/-- The transaction names the type or element name `t` in one of its operations. -/
def References (tx : Transaction) (t : Str) : Prop :=
  (∃ u ∈ tx.Updates, u.TypeName = t) ∨
  (∃ i ∈ tx.Inserts, ∃ o ∈ i.Objects, o.XMLNameLocal = t) ∨
  (∃ d ∈ tx.Deletes, d.TypeName = t)

/-- The fully denying permission. -/
def denyAll : LayerPermission := { Insert := false, Update := false, Delete := false }

/-- The request of `c` with another body. -/
def withBody (c : Context) (body : Body) : Context :=
  { c with Request := { c.Request with Body := body } }

/-- The transaction of the example `<Transaction><Delete typeName="ns:Ghost"/></Transaction>`. -/
def deleteGhost : Transaction :=
  { Updates := [], Inserts := [], Deletes := [{ TypeName := str "ns:Ghost" }] }

/-- The example project with settings that hold an entry for the empty layer ID `""`,
granting everything; `xmlUnmarshal` decodes the document above and fails on any other
body. -/
def emptyIdEnv : Env :=
  { sampleEnv with
    GetSettings := fun _ =>
      .ok { Layers := [([], fun _ => { Insert := true, Update := true, Delete := true }),
                       (str "roads_1", fun _ => { Insert := false, Update := false, Delete := false })] }
    xmlUnmarshal := fun body =>
      if body = str "<Transaction><Delete typeName=\"ns:Ghost\"/></Transaction>" then .ok deleteGhost
      else .error (.other (str "XML syntax error")) }

end Gisquick

/-! # Theorems -/

namespace Gisquick

/-! ## The permission cache -/

theorem permsOK_nil (settings : ProjectSettings) (user : User) : PermsOK settings user [] := by
  intro id p h
  simp at h

theorem getLayerPermissions_fst (ld : LayersData) (st : ProjectSettings) (user : User)
    (perms : Perms) (t : Str) (h : PermsOK st user perms) :
    (getLayerPermissions ld st user perms t).1 = st.UserLayerPermissions user (layerID ld t) := by
  unfold getLayerPermissions
  cases hl : perms.lookup (layerID ld t) with
  | none => simp [hl]
  | some p => simpa [hl] using h _ _ hl

theorem getLayerPermissions_ok (ld : LayersData) (st : ProjectSettings) (user : User)
    (perms : Perms) (t : Str) (h : PermsOK st user perms) :
    PermsOK st user (getLayerPermissions ld st user perms t).2 := by
  unfold getLayerPermissions
  cases hl : perms.lookup (layerID ld t) with
  | some p => simpa [hl] using h
  | none =>
    simp only [hl]
    intro id p hp
    rw [List.lookup_cons] at hp
    by_cases hid : id = layerID ld t
    · subst hid
      simp at hp
      exact hp.symm
    · have : (id == layerID ld t) = false := by simpa using hid
      rw [this] at hp
      exact h _ _ hp

theorem checkUpdates_spec (ld : LayersData) (st : ProjectSettings) (user : User)
    (us : List TypedOp) (perms : Perms) (h : PermsOK st user perms) :
    ((checkUpdates ld st user us perms).1 = true ↔
        ∀ u ∈ us, (resolved ld st user u.TypeName).Update = true) ∧
      PermsOK st user (checkUpdates ld st user us perms).2 := by
  induction us generalizing perms with
  | nil => simp [checkUpdates, h]
  | cons u us ih =>
    have h1 := getLayerPermissions_fst ld st user perms u.TypeName h
    have h2 := getLayerPermissions_ok ld st user perms u.TypeName h
    simp only [checkUpdates, h1]
    cases hu : (st.UserLayerPermissions user (layerID ld u.TypeName)).Update with
    | false => simp [resolved, hu, h2]
    | true => simpa [resolved, hu] using ih _ h2

theorem checkDeletes_spec (ld : LayersData) (st : ProjectSettings) (user : User)
    (ds : List TypedOp) (perms : Perms) (h : PermsOK st user perms) :
    ((checkDeletes ld st user ds perms).1 = true ↔
        ∀ d ∈ ds, (resolved ld st user d.TypeName).Delete = true) ∧
      PermsOK st user (checkDeletes ld st user ds perms).2 := by
  induction ds generalizing perms with
  | nil => simp [checkDeletes, h]
  | cons d ds ih =>
    have h1 := getLayerPermissions_fst ld st user perms d.TypeName h
    have h2 := getLayerPermissions_ok ld st user perms d.TypeName h
    simp only [checkDeletes, h1]
    cases hu : (st.UserLayerPermissions user (layerID ld d.TypeName)).Delete with
    | false => simp [resolved, hu, h2]
    | true => simpa [resolved, hu] using ih _ h2

theorem checkObjects_spec (ld : LayersData) (st : ProjectSettings) (user : User)
    (os : List InsertObject) (perms : Perms) (h : PermsOK st user perms) :
    ((checkObjects ld st user os perms).1 = true ↔
        ∀ o ∈ os, (resolved ld st user o.XMLNameLocal).Insert = true) ∧
      PermsOK st user (checkObjects ld st user os perms).2 := by
  induction os generalizing perms with
  | nil => simp [checkObjects, h]
  | cons o os ih =>
    have h1 := getLayerPermissions_fst ld st user perms o.XMLNameLocal h
    have h2 := getLayerPermissions_ok ld st user perms o.XMLNameLocal h
    simp only [checkObjects, h1]
    cases hu : (st.UserLayerPermissions user (layerID ld o.XMLNameLocal)).Insert with
    | false => simp [resolved, hu, h2]
    | true => simpa [resolved, hu] using ih _ h2

theorem checkInserts_spec (ld : LayersData) (st : ProjectSettings) (user : User)
    (is : List InsertOp) (perms : Perms) (h : PermsOK st user perms) :
    ((checkInserts ld st user is perms).1 = true ↔
        ∀ i ∈ is, ∀ o ∈ i.Objects, (resolved ld st user o.XMLNameLocal).Insert = true) ∧
      PermsOK st user (checkInserts ld st user is perms).2 := by
  induction is generalizing perms with
  | nil => simp [checkInserts, h]
  | cons i is ih =>
    have h1 := checkObjects_spec ld st user i.Objects perms h
    simp only [checkInserts]
    cases hu : (checkObjects ld st user i.Objects perms).1 with
    | false =>
      have : ¬ ∀ o ∈ i.Objects, (resolved ld st user o.XMLNameLocal).Insert = true := by
        intro hx
        have := h1.1.2 hx
        simp [hu] at this
      simp [h1.2, this]
    | true =>
      have hx := h1.1.1 hu
      have ih' := ih _ h1.2
      simp only [Bool.not_true, Bool.false_eq_true, if_false, List.forall_mem_cons]
      exact ⟨⟨fun h => ⟨hx, ih'.1.1 h⟩, fun h => ih'.1.2 h.2⟩, ih'.2⟩

theorem checkTransaction_spec (ld : LayersData) (st : ProjectSettings) (user : User)
    (tx : Transaction) :
    (checkTransaction ld st user tx []).1 = true ↔ Permitted ld st user tx := by
  have hu := checkUpdates_spec ld st user tx.Updates [] (permsOK_nil st user)
  have hi := checkInserts_spec ld st user tx.Inserts _ hu.2
  have hd := checkDeletes_spec ld st user tx.Deletes _ hi.2
  unfold checkTransaction Permitted
  cases h1 : (checkUpdates ld st user tx.Updates []).1 with
  | false =>
    have : ¬ ∀ u ∈ tx.Updates, (resolved ld st user u.TypeName).Update = true := by
      intro hx
      have := hu.1.2 hx
      simp [h1] at this
    simp [h1, this]
  | true =>
    have h1' := hu.1.1 h1
    cases h2 : (checkInserts ld st user tx.Inserts (checkUpdates ld st user tx.Updates []).2).1 with
    | false =>
      have : ¬ ∀ i ∈ tx.Inserts, ∀ o ∈ i.Objects,
          (resolved ld st user o.XMLNameLocal).Insert = true := by
        intro hx
        have := hi.1.2 hx
        simp [h2] at this
      simp [h1, h2, this]
    | true =>
      have h2' := hi.1.1 h2
      simp only [h1, h2, Bool.not_true, Bool.false_eq_true, if_false]
      rw [hd.1]
      exact ⟨fun h => ⟨h1', h2', h⟩, fun h => h.2.2⟩

theorem wfs_ne_wms : str "WFS" ≠ str "WMS" := by decide

/-- The handler on a WFS transaction request that reaches the decoded transaction. -/
theorem handleMapOws_wfs (env : Env) (c : Context) (params : OwsRequestParams)
    (pInfo : ProjectInfo) (st : ProjectSettings) (ld : LayersData) (tx : Transaction)
    (hbind : env.BindQueryParams c.Request.RawQuery = .ok params)
    (hS : params.Service = str "WFS") (hR : params.Request = [])
    (hproj : env.GetProjectInfo (getProjectName env c) = .ok pInfo)
    (hset : env.GetSettings (getProjectName env c) = .ok st)
    (hld : env.GetLayersData (getProjectName env c) = .ok ld)
    (hxml : env.xmlUnmarshal c.Request.Body.bytes = .ok tx) :
    (handleMapOws env c).result =
      if (checkTransaction ld st (env.GetUser c.Request.Header) tx []).1 then
        .served .reverseProxy
          { c.Request with
            RawQuery := ((Query c.Request.RawQuery).Set (str "MAP")
              (env.filepathJoin [str "/publish", getProjectName env c, pInfo.QgisFile])).Encode
            Body := .buffer c.Request.Body.bytes }
      else ErrForbidden := by
  unfold handleMapOws
  simp only [hbind, hproj, hset, hld, hxml, hS, hR, wfs_ne_wms, false_and, if_false, and_self,
    if_true]
  cases h : (checkTransaction ld st (env.GetUser c.Request.Header) tx []).1 <;> simp [h]

/-! ## WFS transactions -/

theorem not_permitted_of_lacking (ld : LayersData) (st : ProjectSettings) (user : User)
    (tx : Transaction) (h : Lacking ld st user tx) : ¬ Permitted ld st user tx := by
  rintro ⟨hu, hi, hd⟩
  rcases h with ⟨u, hmem, hf⟩ | ⟨i, hmem, o, homem, hf⟩ | ⟨d, hmem, hf⟩
  · rw [hu u hmem] at hf
    exact Bool.noConfusion hf
  · rw [hi i hmem o homem] at hf
    exact Bool.noConfusion hf
  · rw [hd d hmem] at hf
    exact Bool.noConfusion hf

theorem handleMapOws_wfs_forbidden (env : Env) (c : Context) (params : OwsRequestParams)
    (pInfo : ProjectInfo) (st : ProjectSettings) (ld : LayersData) (tx : Transaction)
    (hbind : env.BindQueryParams c.Request.RawQuery = .ok params)
    (hS : params.Service = str "WFS") (hR : params.Request = [])
    (hproj : env.GetProjectInfo (getProjectName env c) = .ok pInfo)
    (hset : env.GetSettings (getProjectName env c) = .ok st)
    (hld : env.GetLayersData (getProjectName env c) = .ok ld)
    (hxml : env.xmlUnmarshal c.Request.Body.bytes = .ok tx)
    (hlack : Lacking ld st (env.GetUser c.Request.Header) tx) :
    (handleMapOws env c).result = ErrForbidden := by
  rw [handleMapOws_wfs env c params pInfo st ld tx hbind hS hR hproj hset hld hxml]
  have h := not_permitted_of_lacking ld st _ tx hlack
  rw [← checkTransaction_spec] at h
  simp [h]

/-- C1: on a request with Service "WFS" and an empty Request whose body decodes to a
transaction (the query binding and the project, settings and layer lookups having
succeeded), if some referenced layer lacks the required permission then the handler
returns `echo.ErrForbidden`, which is HTTP 403, and hands no request to a proxy. -/
theorem handleMapOws_denies_unpermitted_transaction (env : Env) (c : Context)
    (params : OwsRequestParams) (pInfo : ProjectInfo) (st : ProjectSettings) (ld : LayersData)
    (tx : Transaction)
    (hbind : env.BindQueryParams c.Request.RawQuery = .ok params)
    (hS : params.Service = str "WFS") (hR : params.Request = [])
    (hproj : env.GetProjectInfo (getProjectName env c) = .ok pInfo)
    (hset : env.GetSettings (getProjectName env c) = .ok st)
    (hld : env.GetLayersData (getProjectName env c) = .ok ld)
    (hxml : env.xmlUnmarshal c.Request.Body.bytes = .ok tx)
    (hlack : Lacking ld st (env.GetUser c.Request.Header) tx) :
    (handleMapOws env c).result = ErrForbidden ∧
      (handleMapOws env c).result.status = some 403 ∧
      (handleMapOws env c).result.forwarded = none := by
  rw [handleMapOws_wfs_forbidden env c params pInfo st ld tx hbind hS hR hproj hset hld hxml hlack]
  exact ⟨rfl, rfl, rfl⟩

/-- C1 at the spec's scenario: one `Update typeName="ns:Roads"` by an identity with
`update=false` on `Roads` is answered 403 and nothing is forwarded. -/
theorem handleMapOws_denies_unpermitted_transaction_witness :
    (handleMapOws sampleEnv (sampleContext (str "SERVICE=WFS")
        (str "<Transaction><Update typeName=\"ns:Roads\"/></Transaction>"))).result = ErrForbidden ∧
      (handleMapOws sampleEnv (sampleContext (str "SERVICE=WFS")
        (str "<Transaction><Update typeName=\"ns:Roads\"/></Transaction>"))).result.status = some 403 ∧
      (handleMapOws sampleEnv (sampleContext (str "SERVICE=WFS")
        (str "<Transaction><Update typeName=\"ns:Roads\"/></Transaction>"))).result.forwarded = none :=
  handleMapOws_denies_unpermitted_transaction sampleEnv
    (sampleContext (str "SERVICE=WFS")
      (str "<Transaction><Update typeName=\"ns:Roads\"/></Transaction>"))
    { Service := str "WFS", Request := [] }
    { State := str "published", QgisFile := str "parks.qgs" }
    { Layers := [(str "roads_1", fun _ => { Insert := false, Update := false, Delete := false }),
                 (str "parcels_2", fun _ => { Insert := true, Update := true, Delete := true })] }
    { LayerNameToID := [(str "Roads", str "roads_1"), (str "Parcels", str "parcels_2")] }
    updateRoads (by rfl) rfl rfl (by rfl) rfl rfl (by rfl)
    (Or.inl ⟨{ TypeName := str "ns:Roads" }, by decide, by decide⟩)

/-- C2: on a request with Service "WFS" and an empty Request whose body decodes to a
transaction in which every referenced layer has the required permission (the query
binding and the project, settings and layer lookups having succeeded), the handler
hands the reverse proxy a request whose body has exactly the bytes of the inbound body. -/
theorem handleMapOws_forwards_permitted_transaction (env : Env) (c : Context)
    (params : OwsRequestParams) (pInfo : ProjectInfo) (st : ProjectSettings) (ld : LayersData)
    (tx : Transaction)
    (hbind : env.BindQueryParams c.Request.RawQuery = .ok params)
    (hS : params.Service = str "WFS") (hR : params.Request = [])
    (hproj : env.GetProjectInfo (getProjectName env c) = .ok pInfo)
    (hset : env.GetSettings (getProjectName env c) = .ok st)
    (hld : env.GetLayersData (getProjectName env c) = .ok ld)
    (hxml : env.xmlUnmarshal c.Request.Body.bytes = .ok tx)
    (hperm : Permitted ld st (env.GetUser c.Request.Header) tx) :
    ∃ req, (handleMapOws env c).result = .served .reverseProxy req ∧
      req.Body.bytes = c.Request.Body.bytes := by
  rw [handleMapOws_wfs env c params pInfo st ld tx hbind hS hR hproj hset hld hxml]
  rw [← checkTransaction_spec] at hperm
  rw [if_pos hperm]
  exact ⟨_, rfl, rfl⟩

/-- C2 at an insert and a delete on layer `Parcels`, which the identity may write. -/
theorem handleMapOws_forwards_permitted_transaction_witness :
    ∃ req, (handleMapOws sampleEnv (sampleContext (str "SERVICE=WFS")
        (str "<Transaction><Insert><myns:Parcels/></Insert><Delete typeName=\"Parcels\"/></Transaction>"))).result
          = .served .reverseProxy req ∧
      req.Body.bytes = (sampleContext (str "SERVICE=WFS")
        (str "<Transaction><Insert><myns:Parcels/></Insert><Delete typeName=\"Parcels\"/></Transaction>")).Request.Body.bytes :=
  handleMapOws_forwards_permitted_transaction sampleEnv
    (sampleContext (str "SERVICE=WFS")
      (str "<Transaction><Insert><myns:Parcels/></Insert><Delete typeName=\"Parcels\"/></Transaction>"))
    { Service := str "WFS", Request := [] }
    { State := str "published", QgisFile := str "parks.qgs" }
    { Layers := [(str "roads_1", fun _ => { Insert := false, Update := false, Delete := false }),
                 (str "parcels_2", fun _ => { Insert := true, Update := true, Delete := true })] }
    { LayerNameToID := [(str "Roads", str "roads_1"), (str "Parcels", str "parcels_2")] }
    insertDeleteParcels (by rfl) rfl rfl (by rfl) rfl rfl (by rfl)
    ⟨by decide, by decide, by decide⟩

/-! ## Layer-name resolution -/

theorem splitByte_of_not_mem (sep : Byte) (n : Str) (h : sep ∉ n) : splitByte sep n = [n] := by
  induction n with
  | nil => rfl
  | cons c cs ih =>
    have hc : c ≠ sep := fun e => h (by simp [e])
    have hcs : sep ∉ cs := fun e => h (by simp [e])
    simp [splitByte, hc, ih hcs]

theorem splitByte_append_sep (sep : Byte) (p n : Str) :
    ∃ L, splitByte sep (p ++ sep :: n) = L ++ splitByte sep n ∧ L ≠ [] := by
  induction p with
  | nil => exact ⟨[[]], by simp [splitByte], by simp⟩
  | cons c cs ih =>
    obtain ⟨L, hL, hne⟩ := ih
    by_cases hc : c = sep
    · exact ⟨[] :: L, by simp [splitByte, hc, ← hL], by simp⟩
    · cases L with
      | nil => exact absurd rfl hne
      | cons q qs => exact ⟨(c :: q) :: qs, by simp [splitByte, hc, hL], by simp⟩

theorem lastPart_prefixed (p n : Str) (h : B ':' ∉ n) :
    lastPart (splitByte (B ':') (p ++ B ':' :: n)) = n := by
  obtain ⟨L, hL, _⟩ := splitByte_append_sep (B ':') p n
  rw [hL, splitByte_of_not_mem _ _ h]
  simp [lastPart]

theorem lastPart_plain (n : Str) (h : B ':' ∉ n) : lastPart (splitByte (B ':') n) = n := by
  rw [splitByte_of_not_mem _ _ h]
  rfl

/-- C7: for a local name `n` without `:` and any prefix `p`, the closure
`getLayerPermissions` gives `p:n` and `n` the same permission (and leaves the same
cache): only the part after the last `:` is looked up. -/
theorem getLayerPermissions_ignores_prefix (ld : LayersData) (st : ProjectSettings) (user : User)
    (perms : Perms) (p n : Str) (h : B ':' ∉ n) :
    getLayerPermissions ld st user perms (p ++ B ':' :: n) =
      getLayerPermissions ld st user perms n := by
  unfold getLayerPermissions layerID
  rw [lastPart_prefixed p n h, lastPart_plain n h]

/-- C7 at `myns:Parcels` and `Parcels`. -/
theorem getLayerPermissions_ignores_prefix_witness :
    B ':' ∉ str "Parcels" ∧
    getLayerPermissions { LayerNameToID := [(str "Parcels", str "parcels_2")] }
        { Layers := [(str "parcels_2", fun _ => { Insert := true, Update := true, Delete := false })] }
        { Username := str "alice" } [] (str "myns" ++ B ':' :: str "Parcels") =
      getLayerPermissions { LayerNameToID := [(str "Parcels", str "parcels_2")] }
        { Layers := [(str "parcels_2", fun _ => { Insert := true, Update := true, Delete := false })] }
        { Username := str "alice" } [] (str "Parcels") :=
  ⟨by decide, getLayerPermissions_ignores_prefix _ _ _ _ _ _ (by decide)⟩

theorem resolved_unknown (ld : LayersData) (st : ProjectSettings) (user : User) (t : Str)
    (hname : ld.LayerNameToID.lookup (lastPart (splitByte (B ':') t)) = none)
    (hid : st.Layers.lookup [] = none) : resolved ld st user t = denyAll := by
  simp [resolved, layerID, hname, ProjectSettings.UserLayerPermissions, hid, denyAll]

/-- C6, amended: when the local name of `t` (the part after the last `:`) is no key of
`LayerNameToID`, the lookup yields the zero-value ID `""`; when the settings hold no
layer of that ID, `getLayerPermissions` resolves `t` to the fully denying permission, and every
transaction that references `t` is answered `echo.ErrForbidden` and not forwarded. -/
theorem getLayerPermissions_unknown_layer_denied (ld : LayersData) (st : ProjectSettings)
    (t : Str)
    (hname : ld.LayerNameToID.lookup (lastPart (splitByte (B ':') t)) = none)
    (hid : st.Layers.lookup [] = none) :
    (∀ user perms, PermsOK st user perms →
      (getLayerPermissions ld st user perms t).1 = denyAll) ∧
    (∀ (env : Env) (c : Context) (params : OwsRequestParams) (pInfo : ProjectInfo)
      (tx : Transaction),
      env.BindQueryParams c.Request.RawQuery = .ok params →
      params.Service = str "WFS" → params.Request = [] →
      env.GetProjectInfo (getProjectName env c) = .ok pInfo →
      env.GetSettings (getProjectName env c) = .ok st →
      env.GetLayersData (getProjectName env c) = .ok ld →
      env.xmlUnmarshal c.Request.Body.bytes = .ok tx →
      References tx t →
      (handleMapOws env c).result = ErrForbidden ∧
        (handleMapOws env c).result.forwarded = none) := by
  refine ⟨?_, ?_⟩
  · intro user perms hok
    rw [getLayerPermissions_fst ld st user perms t hok]
    exact resolved_unknown ld st user t hname hid
  · intro env c params pInfo tx hbind hS hR hproj hset hld hxml href
    have hlack : Lacking ld st (env.GetUser c.Request.Header) tx := by
      rcases href with ⟨u, hm, rfl⟩ | ⟨i, hm, o, hom, rfl⟩ | ⟨d, hm, rfl⟩
      · exact Or.inl ⟨u, hm, by rw [resolved_unknown ld st _ _ hname hid]; rfl⟩
      · exact Or.inr (Or.inl ⟨i, hm, o, hom, by rw [resolved_unknown ld st _ _ hname hid]; rfl⟩)
      · exact Or.inr (Or.inr ⟨d, hm, by rw [resolved_unknown ld st _ _ hname hid]; rfl⟩)
    rw [handleMapOws_wfs_forbidden env c params pInfo st ld tx hbind hS hR hproj hset hld hxml
      hlack]
    exact ⟨rfl, rfl⟩

/-- C6 at the forged name `ns:Ghost` in the sample project. -/
theorem getLayerPermissions_unknown_layer_denied_witness :
    (getLayerPermissions
        { LayerNameToID := [(str "Roads", str "roads_1"), (str "Parcels", str "parcels_2")] }
        { Layers := [(str "parcels_2", fun _ => { Insert := true, Update := true, Delete := true })] }
        { Username := str "alice" } [] (str "ns:Ghost")).1 = denyAll :=
  (getLayerPermissions_unknown_layer_denied
    { LayerNameToID := [(str "Roads", str "roads_1"), (str "Parcels", str "parcels_2")] }
    { Layers := [(str "parcels_2", fun _ => { Insert := true, Update := true, Delete := true })] }
    (str "ns:Ghost") (by decide) (by rfl)).1 { Username := str "alice" } []
    (permsOK_nil _ _)

/-! ## Undecodable bodies and requests other than WFS transactions -/

/-- C5: on a request with Service "WFS" and an empty Request whose body
`xml.Unmarshal` rejects, the handler hands nothing to a proxy, and it returns the
decoder's error as it is, not an `*echo.HTTPError` of code 400: the answer is 500. -/
theorem handleMapOws_undecodable_body (env : Env) (c : Context) (params : OwsRequestParams)
    (pInfo : ProjectInfo) (st : ProjectSettings) (ld : LayersData) (err : Err)
    (hbind : env.BindQueryParams c.Request.RawQuery = .ok params)
    (hS : params.Service = str "WFS") (hR : params.Request = [])
    (hproj : env.GetProjectInfo (getProjectName env c) = .ok pInfo)
    (hset : env.GetSettings (getProjectName env c) = .ok st)
    (hld : env.GetLayersData (getProjectName env c) = .ok ld)
    (hxml : env.xmlUnmarshal c.Request.Body.bytes = .error err) :
    (handleMapOws env c).result = .error err ∧
      (handleMapOws env c).result.status = some 500 ∧
      (handleMapOws env c).result.forwarded = none := by
  have h : (handleMapOws env c).result = .error err := by
    unfold handleMapOws
    simp only [hbind, hproj, hset, hld, hxml, hS, hR, wfs_ne_wms, false_and, if_false, and_self,
      if_true]
  rw [h]
  exact ⟨rfl, rfl, rfl⟩

/-- C5 at the body `<`: the answer is 500 where 400 is specified. -/
theorem handleMapOws_undecodable_body_witness :
    (handleMapOws sampleEnv (sampleContext (str "SERVICE=WFS") (str "<"))).result =
        .error (.other (str "XML syntax error")) ∧
      (handleMapOws sampleEnv (sampleContext (str "SERVICE=WFS") (str "<"))).result.status =
        some 500 ∧
      (handleMapOws sampleEnv (sampleContext (str "SERVICE=WFS") (str "<"))).result.forwarded =
        none :=
  handleMapOws_undecodable_body sampleEnv (sampleContext (str "SERVICE=WFS") (str "<"))
    { Service := str "WFS", Request := [] }
    { State := str "published", QgisFile := str "parks.qgs" }
    { Layers := [(str "roads_1", fun _ => { Insert := false, Update := false, Delete := false }),
                 (str "parcels_2", fun _ => { Insert := true, Update := true, Delete := true })] }
    { LayerNameToID := [(str "Roads", str "roads_1"), (str "Parcels", str "parcels_2")] }
    (.other (str "XML syntax error")) (by rfl) rfl rfl (by rfl) rfl rfl (by rfl)

theorem handleMapOws_other (env : Env) (c : Context)
    (params : OwsRequestParams) (pInfo : ProjectInfo) (st : ProjectSettings)
    (hbind : env.BindQueryParams c.Request.RawQuery = .ok params)
    (hproj : env.GetProjectInfo (getProjectName env c) = .ok pInfo)
    (hset : env.GetSettings (getProjectName env c) = .ok st)
    (hcap : ¬ (params.Service = str "WMS" ∧
      env.EqualFold params.Request (str "GetCapabilities") = true))
    (hother : params.Service ≠ str "WFS" ∨ params.Request ≠ []) :
    (handleMapOws env c).result =
        .served .reverseProxy
          { c.Request with
            RawQuery := ((Query c.Request.RawQuery).Set (str "MAP")
              (env.filepathJoin [str "/publish", getProjectName env c, pInfo.QgisFile])).Encode } ∧
      (handleMapOws env c).perms = [] := by
  have hw : ¬ (params.Service = str "WFS" ∧ params.Request = []) := by
    rintro ⟨h1, h2⟩
    rcases hother with h | h
    · exact h h1
    · exact h h2
  unfold handleMapOws
  simp only [hbind, hproj, hset, hcap, hw, if_false, and_self]

/-- C10: when the request is not routed to the capabilities branch and Service is not
exactly "WFS" or Request is not empty (the query binding and the project and settings
lookups having succeeded), then for every body the handler hands the reverse proxy the
request with that very body, unread, and resolves no layer permission (the map `perms`
stays empty); so the outcome is the same for any two bodies. -/
theorem handleMapOws_passes_other_requests (env : Env) (c : Context)
    (params : OwsRequestParams) (pInfo : ProjectInfo) (st : ProjectSettings)
    (hbind : env.BindQueryParams c.Request.RawQuery = .ok params)
    (hproj : env.GetProjectInfo (getProjectName env c) = .ok pInfo)
    (hset : env.GetSettings (getProjectName env c) = .ok st)
    (hcap : ¬ (params.Service = str "WMS" ∧
      env.EqualFold params.Request (str "GetCapabilities") = true))
    (hother : params.Service ≠ str "WFS" ∨ params.Request ≠ []) :
    ∀ body : Body,
      (handleMapOws env (withBody c body)).result =
        .served .reverseProxy
          { c.Request with
            RawQuery := ((Query c.Request.RawQuery).Set (str "MAP")
              (env.filepathJoin [str "/publish", getProjectName env c, pInfo.QgisFile])).Encode
            Body := body } ∧
      (handleMapOws env (withBody c body)).perms = [] := by
  intro body
  exact handleMapOws_other env (withBody c body) params pInfo st hbind hproj hset hcap hother

/-- C10 at `SERVICE=wfs` (lower case) with a transaction the identity may not submit:
the body is handed on unread. -/
theorem handleMapOws_passes_other_requests_witness :
    (handleMapOws sampleEnv (withBody (sampleContext (str "SERVICE=wfs") [])
        (.stream (str "<Transaction><Update typeName=\"ns:Roads\"/></Transaction>")))).result =
      .served .reverseProxy
        { Path := str "/api/map/ows/alice/parks"
          RawQuery := str "MAP=%2Fpublish%2Falice%2Fparks%2Fparks.qgs&SERVICE=wfs"
          Header := []
          Body := .stream (str "<Transaction><Update typeName=\"ns:Roads\"/></Transaction>") } ∧
    (handleMapOws sampleEnv (withBody (sampleContext (str "SERVICE=wfs") [])
        (.stream (str "<Transaction><Update typeName=\"ns:Roads\"/></Transaction>")))).perms = [] :=
  handleMapOws_passes_other_requests sampleEnv (sampleContext (str "SERVICE=wfs") [])
    { Service := str "wfs", Request := [] }
    { State := str "published", QgisFile := str "parks.qgs" }
    { Layers := [(str "roads_1", fun _ => { Insert := false, Update := false, Delete := false }),
                 (str "parcels_2", fun _ => { Insert := true, Update := true, Delete := true })] }
    (by rfl) (by rfl) rfl (by decide) (Or.inl (by decide))
    (.stream (str "<Transaction><Update typeName=\"ns:Roads\"/></Transaction>"))

/-! ## Query strings: `Encode` then `Query` -/

theorem escapeByte_query_clean : ∀ c : Byte,
    (escapeByte .encodeQueryComponent c).all
      (fun x => x ≠ B '&' ∧ x ≠ B '=' ∧ x ≠ B ';') = true := by decide!

theorem unescape_escapeByte_query : ∀ c : Byte,
    (shouldEscape c .encodeQueryComponent = false → c ≠ B '%' ∧ c ≠ B '+') ∧
    (ishex (upperhex (c.val / 16)) = true ∧ ishex (upperhex (c.val % 16)) = true ∧
      (Fin.ofNat (unhex (upperhex (c.val / 16)) * 16 + unhex (upperhex (c.val % 16))) : Byte) = c) := by
  decide!

theorem QueryEscape_clean (s : Str) :
    ∀ x ∈ QueryEscape s, x ≠ B '&' ∧ x ≠ B '=' ∧ x ≠ B ';' := by
  intro x hx
  simp only [QueryEscape, escape, List.mem_flatMap] at hx
  obtain ⟨c, _, hxc⟩ := hx
  have h := escapeByte_query_clean c
  rw [List.all_eq_true] at h
  simpa using h x hxc

theorem unescape_cons (mode : Mode) (c : Byte) (cs : Str) :
    unescape mode (c :: cs) =
      if c = B '%' then
        match cs with
        | h :: l :: rest =>
          if ishex h ∧ ishex l then
            if mode = .encodeHost ∧ unhex h < 8 ∧ ¬ (h = B '2' ∧ l = B '5') then none
            else if mode = .encodeZone ∧ ¬ (h = B '2' ∧ l = B '5') ∧
                unhex h * 16 + unhex l ≠ 32 ∧
                shouldEscape (Fin.ofNat (unhex h * 16 + unhex l)) .encodeHost then none
            else (unescape mode rest).map (fun r => Fin.ofNat (unhex h * 16 + unhex l) :: r)
          else none
        | _ => none
      else if c = B '+' ∧ mode = .encodeQueryComponent then
        (unescape mode cs).map (fun r => B ' ' :: r)
      else if (mode = .encodeHost ∨ mode = .encodeZone) ∧ c.val < 128 ∧
          shouldEscape c .encodeHost then none
      else (unescape mode cs).map (fun r => c :: r) := by
  rcases cs with _ | ⟨h, _ | ⟨l, rest⟩⟩ <;> rfl

theorem unescape_cons_plain (mode : Mode) (c : Byte) (cs : Str) (h1 : c ≠ B '%')
    (h2 : ¬ (c = B '+' ∧ mode = .encodeQueryComponent))
    (h3 : ¬ ((mode = .encodeHost ∨ mode = .encodeZone) ∧ c.val < 128 ∧
      shouldEscape c .encodeHost = true)) :
    unescape mode (c :: cs) = (unescape mode cs).map (fun r => c :: r) := by
  rw [unescape_cons]
  simp only [h1, h2, h3, if_false]

theorem unescape_cons_plus (cs : Str) :
    unescape .encodeQueryComponent (B '+' :: cs) =
      (unescape .encodeQueryComponent cs).map (fun r => B ' ' :: r) := by
  rw [unescape_cons]
  have e1 : B '+' ≠ B '%' := by decide
  simp [e1]

theorem unescape_escapeByte_append (c : Byte) (rest : Str) :
    unescape .encodeQueryComponent (escapeByte .encodeQueryComponent c ++ rest) =
      (unescape .encodeQueryComponent rest).map (fun r => c :: r) := by
  obtain ⟨h1, h2, h3, h4⟩ := unescape_escapeByte_query c
  unfold escapeByte
  by_cases hs : shouldEscape c .encodeQueryComponent = true
  · by_cases hsp : c = B ' '
    · have e1 : B '+' ≠ B '%' := by decide
      have e2 : shouldEscape (B ' ') .encodeQueryComponent = true := by decide
      subst hsp
      simp only [e2, if_true, and_self, List.singleton_append]
      exact unescape_cons_plus rest
    · simp [hs, hsp, unescape_cons, h2, h3, h4]
  · have hs' : shouldEscape c .encodeQueryComponent = false := by simpa using hs
    obtain ⟨n1, n2⟩ := h1 hs'
    simp only [hs', Bool.false_eq_true, if_false, List.singleton_append]
    exact unescape_cons_plain _ c rest n1 (fun h => n2 h.1) (by simp)

theorem QueryUnescape_QueryEscape (s : Str) : QueryUnescape (QueryEscape s) = some s := by
  induction s with
  | nil => rfl
  | cons c cs ih =>
    simp only [QueryEscape, QueryUnescape, escape, List.flatMap_cons] at ih ⊢
    rw [unescape_escapeByte_append, ih]
    rfl

theorem cutByte_append (sep : Byte) (a b : Str) (h : sep ∉ a) :
    cutByte sep (a ++ sep :: b) = (a, b) := by
  induction a with
  | nil => simp [cutByte]
  | cons c cs ih =>
    have hc : c ≠ sep := fun e => h (by simp [e])
    have hcs : sep ∉ cs := fun e => h (by simp [e])
    simp [cutByte, hc, ih hcs]

theorem splitByte_append_of_not_mem (sep : Byte) (p rest : Str) (h : sep ∉ p) :
    splitByte sep (p ++ sep :: rest) = p :: splitByte sep rest := by
  induction p with
  | nil => simp [splitByte]
  | cons c cs ih =>
    have hc : c ≠ sep := fun e => h (by simp [e])
    have hcs : sep ∉ cs := fun e => h (by simp [e])
    simp [splitByte, hc, ih hcs]

theorem splitByte_joinByte (sep : Byte) (segs : List Str) (hne : segs ≠ [])
    (h : ∀ s ∈ segs, sep ∉ s) : splitByte sep (joinByte sep segs) = segs := by
  induction segs with
  | nil => exact absurd rfl hne
  | cons p ps ih =>
    cases ps with
    | nil => exact splitByte_of_not_mem sep p (h p (by simp))
    | cons q qs =>
      have hp : sep ∉ p := h p (by simp)
      rw [joinByte, splitByte_append_of_not_mem sep p _ hp,
        ih (by simp) (fun s hs => h s (List.mem_cons_of_mem _ hs))]

theorem parseQueryStep_segment (m : Values) (k v : Str) :
    parseQueryStep m (QueryEscape k ++ B '=' :: QueryEscape v) = m.add k v := by
  have hk := QueryEscape_clean k
  have hv := QueryEscape_clean v
  have hsemi : B ';' ∉ QueryEscape k ++ B '=' :: QueryEscape v := by
    intro hmem
    rcases List.mem_append.1 hmem with h | h
    · exact (hk _ h).2.2 rfl
    · rcases List.mem_cons.1 h with h | h
      · exact absurd h (by decide)
      · exact (hv _ h).2.2 rfl
  have heq : B '=' ∉ QueryEscape k := fun h => (hk _ h).2.1 rfl
  unfold parseQueryStep
  rw [if_neg hsemi, if_neg (by simp), cutByte_append _ _ _ heq]
  simp [QueryUnescape_QueryEscape]

theorem foldl_parseQueryStep (pairs : List (Str × Str)) (acc : Values) :
    (pairs.map (fun kv => QueryEscape kv.1 ++ B '=' :: QueryEscape kv.2)).foldl parseQueryStep acc =
      pairs.foldl (fun (acc : Values) kv => acc.add kv.1 kv.2) acc := by
  induction pairs generalizing acc with
  | nil => rfl
  | cons kv rest ih => simp only [List.map_cons, List.foldl_cons, parseQueryStep_segment, ih]

theorem encodeSegments_eq (m : Values) :
    encodeSegments m =
      (pairsOf m).map (fun kv => QueryEscape kv.1 ++ B '=' :: QueryEscape kv.2) := by
  unfold encodeSegments pairsOf
  simp [List.map_flatMap, Function.comp_def]

/-- Parsing what `Encode` wrote adds the written pairs one by one. -/
theorem Query_Encode (m : Values) :
    Query m.Encode = (pairsOf m).foldl (fun (acc : Values) kv => acc.add kv.1 kv.2) [] := by
  unfold Query Values.Encode
  rw [encodeSegments_eq]
  cases hp : pairsOf m with
  | nil => simp [joinByte, splitByte, parseQueryStep]
  | cons kv rest =>
    rw [splitByte_joinByte _ _ (by simp), foldl_parseQueryStep]
    intro s hs
    simp only [List.mem_map] at hs
    obtain ⟨kv', _, rfl⟩ := hs
    intro hmem
    rcases List.mem_append.1 hmem with h | h
    · exact (QueryEscape_clean _ _ h).1 rfl
    · rcases List.mem_cons.1 h with h | h
      · exact absurd h (by decide)
      · exact (QueryEscape_clean _ _ h).1 rfl

theorem lookup_add (m : Values) (k k' v : Str) :
    (m.add k' v).lookup k =
      if k' = k then some ((m.lookup k).getD [] ++ [v]) else m.lookup k := by
  induction m with
  | nil =>
    by_cases h : k' = k
    · subst h
      simp [Values.add, List.lookup]
    · have h' : (k == k') = false := by simpa using fun e => h e.symm
      simp [Values.add, List.lookup, h, h']
  | cons e r ih =>
    obtain ⟨k0, vs⟩ := e
    by_cases h0 : k0 = k'
    · subst h0
      by_cases h : k0 = k
      · subst h
        simp [Values.add, List.lookup]
      · have h' : (k == k0) = false := by simpa using fun e => h e.symm
        simp [Values.add, List.lookup, h, h']
    · by_cases h : k = k0
      · subst h
        have hk : ¬ k' = k := fun e => h0 e.symm
        simp [Values.add, List.lookup, h0, hk]
      · have h' : (k == k0) = false := by simpa using h
        simp [Values.add, List.lookup, h0, h', ih]

theorem lookup_foldl_add (k : Str) (pairs : List (Str × Str)) (acc : Values) :
    (pairs.foldl (fun (acc : Values) kv => acc.add kv.1 kv.2) acc).lookup k =
      if valsOf k pairs = [] then acc.lookup k
      else some ((acc.lookup k).getD [] ++ valsOf k pairs) := by
  induction pairs generalizing acc with
  | nil => simp [valsOf]
  | cons kv rest ih =>
    rw [List.foldl_cons, ih, lookup_add]
    by_cases h : kv.1 = k
    · have hv : valsOf k (kv :: rest) = kv.2 :: valsOf k rest := by simp [valsOf, h]
      rw [hv, if_pos h]
      by_cases hr : valsOf k rest = []
      · simp [hr]
      · simp [hr]
    · have hv : valsOf k (kv :: rest) = valsOf k rest := by simp [valsOf, h]
      rw [hv, if_neg h]

theorem valsOf_flatMap (k : Str) (L : Values) :
    valsOf k (L.flatMap (fun e => e.2.map (fun v => (e.1, v)))) =
      (L.filter (fun e => e.1 = k)).flatMap (fun e => e.2) := by
  induction L with
  | nil => rfl
  | cons e r ih =>
    have hsplit : valsOf k ((e :: r).flatMap (fun e => e.2.map (fun v => (e.1, v)))) =
        valsOf k (e.2.map (fun v => (e.1, v))) ++
          valsOf k (r.flatMap (fun e => e.2.map (fun v => (e.1, v)))) := by
      simp [valsOf, List.flatMap_cons]
    rw [hsplit, ih]
    by_cases h : e.1 = k
    · have : valsOf k (e.2.map (fun v => (e.1, v))) = e.2 := by
        simp [valsOf, List.filter_map, Function.comp_def, h]
      rw [this, List.filter_cons, if_pos (by simpa using h), List.flatMap_cons]
    · have : valsOf k (e.2.map (fun v => (e.1, v))) = [] := by
        simp [valsOf, List.filter_map, Function.comp_def, h]
      simp [this, h]

theorem filter_key_Set (m : Values) (k x : Str) :
    (m.Set k x).filter (fun e => e.1 = k) = [(k, [x])] := by
  simp [Values.Set, List.filter_cons, List.filter_filter]

/-- After `Set(k, x)` and `Encode`, the parsed query gives `k` the one value `x`. -/
theorem Query_Encode_Set (m : Values) (k x : Str) :
    (Query (m.Set k x).Encode).lookup k = some [x] := by
  rw [Query_Encode, lookup_foldl_add]
  have hperm : ((m.Set k x).insertionSort (fun a b => strLe a.1 b.1 = true)).filter
      (fun e => e.1 = k) = [(k, [x])] := by
    have hp := (List.perm_insertionSort (fun (a b : Str × List Str) => strLe a.1 b.1 = true)
      (m.Set k x)).filter (fun e => decide (e.1 = k))
    rw [filter_key_Set] at hp
    exact List.perm_singleton.1 hp
  have hv : valsOf k (pairsOf (m.Set k x)) = [x] := by
    unfold pairsOf
    rw [valsOf_flatMap, hperm]
    simp
  simp [hv]

theorem handleMapOws_forwarded_query (env : Env) (c : Context) (pInfo : ProjectInfo)
    (req : Request)
    (hproj : env.GetProjectInfo (getProjectName env c) = .ok pInfo)
    (hfw : (handleMapOws env c).result.forwarded = some req) :
    req.RawQuery = ((Query c.Request.RawQuery).Set (str "MAP")
      (env.filepathJoin [str "/publish", getProjectName env c, pInfo.QgisFile])).Encode := by
  unfold handleMapOws at hfw
  simp only [hproj] at hfw
  repeat' split at hfw
  all_goals first
    | (simp [Result.forwarded, ErrNotFound, ErrForbidden] at hfw; done)
    | (simp only [Result.forwarded, Option.some.injEq] at hfw; subst hfw; rfl)

/-- C8: whatever the client's query string, when the handler hands a request of an
existing project to a proxy, the query string of that request gives `MAP` exactly one
value, `filepath.Join("/publish", projectName, pInfo.QgisFile)`. -/
theorem handleMapOws_sets_MAP (env : Env) (c : Context) (pInfo : ProjectInfo) (req : Request)
    (hproj : env.GetProjectInfo (getProjectName env c) = .ok pInfo)
    (hfw : (handleMapOws env c).result.forwarded = some req) :
    (Query req.RawQuery).lookup (str "MAP") =
      some [env.filepathJoin [str "/publish", getProjectName env c, pInfo.QgisFile]] := by
  rw [handleMapOws_forwarded_query env c pInfo req hproj hfw]
  exact Query_Encode_Set _ _ _

/-- C8 at a request whose client supplied two `MAP` values of its own. -/
theorem handleMapOws_sets_MAP_witness :
    (handleMapOws sampleEnv (sampleContext
        (str "SERVICE=WMS&REQUEST=GetMap&MAP=/etc/passwd&MAP=x") [])).result.forwarded =
      some { Path := str "/api/map/ows/alice/parks"
             RawQuery := str "MAP=%2Fpublish%2Falice%2Fparks%2Fparks.qgs&REQUEST=GetMap&SERVICE=WMS"
             Header := []
             Body := .stream [] } ∧
    (Query (str "MAP=%2Fpublish%2Falice%2Fparks%2Fparks.qgs&REQUEST=GetMap&SERVICE=WMS")).lookup
        (str "MAP") = some [str "/publish/alice/parks/parks.qgs"] :=
  ⟨by decide,
   handleMapOws_sets_MAP sampleEnv
    (sampleContext (str "SERVICE=WMS&REQUEST=GetMap&MAP=/etc/passwd&MAP=x") [])
    { State := str "published", QgisFile := str "parks.qgs" }
    { Path := str "/api/map/ows/alice/parks"
      RawQuery := str "MAP=%2Fpublish%2Falice%2Fparks%2Fparks.qgs&REQUEST=GetMap&SERVICE=WMS"
      Header := []
      Body := .stream [] }
    (by rfl) (by decide)⟩

/-! ## The pattern of `rewriteGetCapabilities` -/

theorem eq_append_of_isPrefixOf (p d : Str) (h : p.isPrefixOf d = true) :
    d = p ++ d.drop p.length := by
  rw [List.isPrefixOf_iff_prefix] at h
  obtain ⟨t, rfl⟩ := h
  simp

theorem isPrefixOf_append (p t : Str) : p.isPrefixOf (p ++ t) = true := by
  rw [List.isPrefixOf_iff_prefix]
  exact List.prefix_append p t

theorem hasMAP_sound (rest : Str) (h : hasMAP rest = true) :
    ∃ x y, rest = x ++ str "MAP=" ++ y ∧ y ≠ [] := by
  induction rest with
  | nil => simp [hasMAP] at h
  | cons c cs ih =>
    rw [hasMAP, Bool.or_eq_true, Bool.and_eq_true] at h
    rcases h with ⟨hp, hl⟩ | h
    · refine ⟨[], (c :: cs).drop 4, ?_, ?_⟩
      · simpa using eq_append_of_isPrefixOf _ _ hp
      · have hl' : 4 < (c :: cs).length := by simpa using hl
        intro hnil
        have := congrArg List.length hnil
        simp at this
        simp at hl'
        omega
    · obtain ⟨x, y, hxy, hy⟩ := ih h
      exact ⟨c :: x, y, by simp [hxy], hy⟩

theorem hasMAP_complete (x y : Str) (hy : y ≠ []) : hasMAP (x ++ str "MAP=" ++ y) = true := by
  induction x with
  | nil =>
    obtain ⟨c, cs, rfl⟩ := List.exists_cons_of_ne_nil hy
    have : str "MAP=" = [B 'M', B 'A', B 'P', B '='] := by decide
    simp [this, hasMAP, List.isPrefixOf]
  | cons c cs ih =>
    have : (c :: cs) ++ str "MAP=" ++ y = c :: (cs ++ str "MAP=" ++ y) := by simp
    rw [this, hasMAP, ih]
    simp

theorem takeWhile_append_stop (p : Byte → Bool) (a rest : Str) (c : Byte)
    (ha : ∀ x ∈ a, p x = true) (hc : p c = false) :
    (a ++ c :: rest).takeWhile p = a := by
  induction a with
  | nil => simp [List.takeWhile, hc]
  | cons x xs ih =>
    have hx : p x = true := ha x (by simp)
    simp only [List.cons_append, List.takeWhile_cons, hx, if_true]
    rw [ih (fun y hy => ha y (List.mem_cons_of_mem _ hy))]

theorem takeWhile_stop (p : Byte → Bool) (l : Str) (h : (l.takeWhile p).length < l.length) :
    ∃ c rest, l = l.takeWhile p ++ c :: rest ∧ p c = false := by
  induction l with
  | nil => simp at h
  | cons x xs ih =>
    by_cases hx : p x = true
    · simp only [List.takeWhile_cons, hx, if_true, List.length_cons] at h ⊢
      obtain ⟨c, rest, hl, hc⟩ := ih (by omega)
      exact ⟨c, rest, by rw [List.cons_append, ← hl], hc⟩
    · have hx' : p x = false := by simpa using hx
      exact ⟨x, xs, by simp [List.takeWhile_cons, hx'], hx'⟩

theorem mem_takeWhile (p : Byte → Bool) (l : Str) : ∀ x ∈ l.takeWhile p, p x = true := by
  induction l with
  | nil => simp
  | cons y ys ih =>
    intro x hx
    by_cases hy : p y = true
    · simp only [List.takeWhile_cons, hy, if_true, List.mem_cons] at hx
      rcases hx with rfl | hx
      · exact hy
      · exact ih x hx
    · have hy' : p y = false := by simpa using hy
      simp [List.takeWhile_cons, hy'] at hx

theorem str_xlink : str "xlink:href=\"http" =
    [120, 108, 105, 110, 107, 58, 104, 114, 101, 102, 61, 34, 104, 116, 116, 112] := by decide

theorem str_sss : str "s://" = [115, 58, 47, 47] := by decide

theorem str_ss : str "://" = [58, 47, 47] := by decide

theorem str_s : str "s" = [115] := by decide

theorem str_quote : str "\"" = [34] := by decide

theorem B_quote : B '"' = 34 := by decide

theorem matchAt_complete (m post : Str) (h : Matches m) :
    matchAt (m ++ post) = some m.length := by
  obtain ⟨s, a, b, hs, ha, hb, hqa, hqb, rfl⟩ := h
  obtain ⟨a0, a', rfl⟩ := List.exists_cons_of_ne_nil ha
  have hbody : ∀ x ∈ (a0 :: a') ++ str "MAP=" ++ b, (decide (x ≠ B '"')) = true := by
    intro x hx
    have hM : B '"' ∉ str "MAP=" := by decide
    simp only [List.mem_append] at hx
    have : x ≠ B '"' := by
      rintro rfl
      rcases hx with (hx | hx) | hx
      · exact hqa hx
      · exact hM hx
      · exact hqb hx
    simpa using this
  have hstop : (decide (B '"' ≠ B '"')) = false := by simp
  have htw : ∀ rest, (((a0 :: a') ++ str "MAP=" ++ b) ++ B '"' :: rest).takeWhile
      (fun c => decide (c ≠ B '"')) = (a0 :: a') ++ str "MAP=" ++ b :=
    fun rest => takeWhile_append_stop _ _ rest _ hbody hstop
  have hbm : bodyMatches ((a0 :: a') ++ str "MAP=" ++ b) = true := by
    have := hasMAP_complete a' b hb
    simpa [bodyMatches] using this
  rcases hs with rfl | rfl
  · have hd : str "xlink:href=\"http" ++ [] ++ str "://" ++ (a0 :: a') ++ str "MAP=" ++ b ++
        str "\"" ++ post =
        str "xlink:href=\"http" ++ (str "://" ++
          ((((a0 :: a') ++ str "MAP=" ++ b) ++ B '"' :: post))) := by
      simp [str_quote, B_quote]
    rw [hd]
    unfold matchAt
    rw [isPrefixOf_append]
    simp only [if_true]
    have hlen : (str "xlink:href=\"http").length = 16 := by decide
    have hdrop16 : (str "xlink:href=\"http" ++ (str "://" ++
          ((((a0 :: a') ++ str "MAP=" ++ b) ++ B '"' :: post)))).drop 16 =
        str "://" ++ ((((a0 :: a') ++ str "MAP=" ++ b) ++ B '"' :: post)) := by
      rw [← hlen, List.drop_left]
    have hdrop19 : (str "xlink:href=\"http" ++ (str "://" ++
          ((((a0 :: a') ++ str "MAP=" ++ b) ++ B '"' :: post)))).drop 19 =
        ((((a0 :: a') ++ str "MAP=" ++ b) ++ B '"' :: post)) := by
      have : (str "xlink:href=\"http" ++ str "://").length = 19 := by decide
      rw [← List.append_assoc, ← this, List.drop_left]
    have hns : (str "s://").isPrefixOf (str "://" ++
        ((((a0 :: a') ++ str "MAP=" ++ b) ++ B '"' :: post))) = false := by
      rw [str_sss, str_ss]
      rfl
    rw [hdrop16, hns, isPrefixOf_append]
    simp only [Bool.false_eq_true, if_false, if_true, hdrop19, htw, hbm]
    simp [str_xlink, str_ss, str_quote]
    omega
  · have hd : str "xlink:href=\"http" ++ str "s" ++ str "://" ++ (a0 :: a') ++ str "MAP=" ++ b ++
        str "\"" ++ post =
        str "xlink:href=\"http" ++ (str "s://" ++
          ((((a0 :: a') ++ str "MAP=" ++ b) ++ B '"' :: post))) := by
      simp [str_quote, B_quote, str_s, str_sss, str_ss]
    rw [hd]
    unfold matchAt
    rw [isPrefixOf_append]
    simp only [if_true]
    have hlen : (str "xlink:href=\"http").length = 16 := by decide
    have hdrop16 : (str "xlink:href=\"http" ++ (str "s://" ++
          ((((a0 :: a') ++ str "MAP=" ++ b) ++ B '"' :: post)))).drop 16 =
        str "s://" ++ ((((a0 :: a') ++ str "MAP=" ++ b) ++ B '"' :: post)) := by
      rw [← hlen, List.drop_left]
    have hdrop20 : (str "xlink:href=\"http" ++ (str "s://" ++
          ((((a0 :: a') ++ str "MAP=" ++ b) ++ B '"' :: post)))).drop 20 =
        ((((a0 :: a') ++ str "MAP=" ++ b) ++ B '"' :: post)) := by
      have : (str "xlink:href=\"http" ++ str "s://").length = 20 := by decide
      rw [← List.append_assoc, ← this, List.drop_left]
    rw [hdrop16, isPrefixOf_append]
    simp only [if_true, hdrop20, htw, hbm]
    simp [str_xlink, str_sss, str_s, str_ss, str_quote]
    omega

theorem matchAt_sound (d : Str) (L : Nat) (h : matchAt d = some L) :
    ∃ m post, d = m ++ post ∧ m.length = L ∧ Matches m := by
  unfold matchAt at h
  by_cases hp : (str "xlink:href=\"http").isPrefixOf d = true
  swap
  · simp [hp] at h
  rw [if_pos hp] at h
  have hd := eq_append_of_isPrefixOf _ _ hp
  have hlen : (str "xlink:href=\"http").length = 16 := by decide
  rw [hlen] at hd
  -- the common tail of both cases
  have key : ∀ (s : Str) (n : Nat), (s = [] ∨ s = str "s") → n = 16 + s.length + 3 →
      d.drop 16 = s ++ str "://" ++ d.drop n →
      ((d.drop n).takeWhile (fun c => decide (c ≠ B '"'))).length < (d.drop n).length →
      bodyMatches ((d.drop n).takeWhile (fun c => decide (c ≠ B '"'))) = true →
      L = n + ((d.drop n).takeWhile (fun c => decide (c ≠ B '"'))).length + 1 →
      ∃ m post, d = m ++ post ∧ m.length = L ∧ Matches m := by
    intro s n hs hn hdrop hlt hbm hL
    obtain ⟨c, rest, ht, hc⟩ := takeWhile_stop _ _ hlt
    have hcq : c = B '"' := by simpa using hc
    subst hcq
    generalize hbody : (d.drop n).takeWhile (fun c => decide (c ≠ B '"')) = body at *
    have hq : ∀ x ∈ body, x ≠ B '"' := by
      intro x hx
      have := mem_takeWhile (fun c => decide (c ≠ B '"')) (d.drop n) x (by rw [hbody]; exact hx)
      simpa using this
    cases body with
    | nil => simp [bodyMatches] at hbm
    | cons a0 rest0 =>
      obtain ⟨x, y, hxy, hy⟩ := hasMAP_sound rest0 (by simpa [bodyMatches] using hbm)
      subst hxy
      refine ⟨str "xlink:href=\"http" ++ s ++ str "://" ++ (a0 :: x) ++ str "MAP=" ++ y ++
        str "\"", rest, ?_, ?_, ?_⟩
      · rw [hd, hdrop, ht]
        simp [str_quote, B_quote]
      · rw [hL, hn]
        have h3 : (str "://").length = 3 := by decide
        have h4 : (str "MAP=").length = 4 := by decide
        have h1 : (str "\"").length = 1 := by decide
        simp only [List.length_append, List.length_cons, hlen, h3, h4, h1]
        omega
      · refine ⟨s, a0 :: x, y, hs, by simp, hy, ?_, ?_, rfl⟩
        · intro hm
          exact hq _ (by simp only [List.cons_append, List.append_assoc]
                         rcases List.mem_cons.1 hm with h | h
                         · exact h ▸ List.mem_cons_self _ _
                         · exact List.mem_cons_of_mem _ (List.mem_append_left _ h)) rfl
        · intro hm
          exact hq _ (by simp only [List.cons_append, List.append_assoc]
                         exact List.mem_cons_of_mem _ (List.mem_append_right _
                           (List.mem_append_right _ hm))) rfl
  by_cases h1 : (str "s://").isPrefixOf (d.drop 16) = true
  · simp only [h1, if_true] at h
    have hr := eq_append_of_isPrefixOf _ _ h1
    have hl4 : (str "s://").length = 4 := by decide
    rw [hl4, List.drop_drop] at hr
    by_cases hc : ((d.drop 20).takeWhile (fun c => decide (c ≠ B '"'))).length < (d.drop 20).length ∧
        bodyMatches ((d.drop 20).takeWhile (fun c => decide (c ≠ B '"'))) = true
    · rw [if_pos hc] at h
      refine key (str "s") 20 (Or.inr rfl) (by decide) ?_ hc.1 hc.2 (by simpa using h.symm)
      rw [hr]
      simp [str_sss, str_s, str_ss]
    · rw [if_neg hc] at h
      exact absurd h (by simp)
  · simp only [h1, Bool.false_eq_true, if_false] at h
    by_cases h2 : (str "://").isPrefixOf (d.drop 16) = true
    · simp only [h2, if_true] at h
      have hr := eq_append_of_isPrefixOf _ _ h2
      have hl3 : (str "://").length = 3 := by decide
      rw [hl3, List.drop_drop] at hr
      by_cases hc : ((d.drop 19).takeWhile (fun c => decide (c ≠ B '"'))).length < (d.drop 19).length ∧
          bodyMatches ((d.drop 19).takeWhile (fun c => decide (c ≠ B '"'))) = true
      · rw [if_pos hc] at h
        refine key [] 19 (Or.inl rfl) (by decide) ?_ hc.1 hc.2 (by simpa using h.symm)
        rw [hr]
        simp
      · rw [if_neg hc] at h
        exact absurd h (by simp)
    · simp [h2] at h

theorem findAllAux_nil (doc : Str) (h : ∀ pre d : Str, doc = pre ++ d → matchAt d = none) :
    ∀ k, findAllAux k doc = [] := by
  induction doc with
  | nil => intro k; cases k <;> rfl
  | cons c cs ih =>
    have hcs : ∀ pre d : Str, cs = pre ++ d → matchAt d = none :=
      fun pre d e => h (c :: pre) d (by rw [e]; rfl)
    intro k
    cases k with
    | zero =>
      have h0 : matchAt (c :: cs) = none := h [] (c :: cs) rfl
      simp only [findAllAux, h0]
      exact ih hcs 0
    | succ k =>
      simp only [findAllAux]
      exact ih hcs k

theorem matchAt_none_of_noMatch (doc : Str) (h : NoMatch doc) (pre d : Str)
    (e : doc = pre ++ d) : matchAt d = none := by
  cases hm : matchAt d with
  | none => rfl
  | some L =>
    obtain ⟨m, post, hd, _, hM⟩ := matchAt_sound d L hm
    exact absurd hM (h pre m post (by rw [e, hd, List.append_assoc]))

theorem noMatch_of_tails (doc : Str) (h : doc.tails.all (fun d => (matchAt d).isNone) = true) :
    NoMatch doc := by
  intro pre m post e hM
  have hc := matchAt_complete m post hM
  rw [List.all_eq_true] at h
  have hmem : m ++ post ∈ doc.tails := by
    rw [List.mem_tails]
    exact ⟨pre, by rw [e, List.append_assoc]⟩
  have := h _ hmem
  rw [hc] at this
  simp at this

/-- C9: when no substring of the body matches the pattern, `FindAllString` finds
nothing, so no substitution is made and the body installed is the body read, byte for
byte (with its length as content length); this holds in particular for a document
already rewritten that has no `MAP=` href left. -/
theorem rewriteGetCapabilities_no_match (htmlUnescape : Str → Str) (owsPath body : Str)
    (h : NoMatch body) :
    FindAllString body = [] ∧
    rewriteGetCapabilities htmlUnescape owsPath { read := .ok body, close := none } =
      .ok { Body := body, ContentLength := body.length, HeaderContentLength := Itoa body.length } := by
  have hf : FindAllString body = [] :=
    findAllAux_nil body (matchAt_none_of_noMatch body h) 0
  refine ⟨hf, ?_⟩
  simp [rewriteGetCapabilities, hf, rewriteLoop]

/-- C9 at the rewritten document of the spec's scenario, which has no `MAP=` href left. -/
theorem rewriteGetCapabilities_no_match_witness :
    FindAllString (str "<a xlink:href=\"http://internal:8080/api/map/ows/alice/parks?SERVICE=WMS\"/>") = [] ∧
    rewriteGetCapabilities unescapeBasic (str "/api/map/ows/alice/parks")
      { read := .ok (str "<a xlink:href=\"http://internal:8080/api/map/ows/alice/parks?SERVICE=WMS\"/>"),
        close := none } =
      .ok { Body := str "<a xlink:href=\"http://internal:8080/api/map/ows/alice/parks?SERVICE=WMS\"/>"
            ContentLength := (str "<a xlink:href=\"http://internal:8080/api/map/ows/alice/parks?SERVICE=WMS\"/>").length
            HeaderContentLength := Itoa (str "<a xlink:href=\"http://internal:8080/api/map/ows/alice/parks?SERVICE=WMS\"/>").length } :=
  rewriteGetCapabilities_no_match unescapeBasic (str "/api/map/ows/alice/parks")
    (str "<a xlink:href=\"http://internal:8080/api/map/ows/alice/parks?SERVICE=WMS\"/>")
    (noMatch_of_tails _ (by decide!))

/-! ## The query of a rewritten URL -/

theorem clean_nil : Clean [] := by
  intro x hx
  simp at hx

theorem clean_append {a b : Str} (ha : Clean a) (hb : Clean b) : Clean (a ++ b) := by
  intro x hx
  rcases List.mem_append.1 hx with h | h
  · exact ha x h
  · exact hb x h

theorem clean_cons {c : Byte} {s : Str} (hc : c ≠ B '?' ∧ c ≠ B '#') (hs : Clean s) :
    Clean (c :: s) := by
  intro x hx
  rcases List.mem_cons.1 hx with h | h
  · exact h ▸ hc
  · exact hs x h

set_option maxRecDepth 20000 in
theorem escapeByte_clean : ∀ (mode : Mode), mode ≠ .encodeFragment → ∀ (c : Byte),
    (escapeByte mode c).all (fun x => x ≠ B '?' ∧ x ≠ B '#') = true := by
  intro mode hm
  cases mode <;> first | exact absurd rfl hm | decide!

theorem escape_clean (mode : Mode) (hm : mode ≠ .encodeFragment) (s : Str) :
    Clean (escape mode s) := by
  intro x hx
  simp only [escape, List.mem_flatMap] at hx
  obtain ⟨c, _, hxc⟩ := hx
  have h := escapeByte_clean mode hm c
  rw [List.all_eq_true] at h
  simpa using h x hxc

set_option maxRecDepth 20000 in
theorem validEncoded_byte_clean : ∀ (mode : Mode), mode ≠ .encodeFragment → ∀ (c : Byte),
    (decide (c ∈ [B '!', B '$', B '&', B '\'', B '(', B ')', B '*', B '+', B ',', B ';', B '=',
      B ':', B '@', B '[', B ']', B '%']) || !shouldEscape c mode) = true →
    c ≠ B '?' ∧ c ≠ B '#' := by
  intro mode hm
  cases mode <;> first | exact absurd rfl hm | decide!

theorem validEncoded_clean (mode : Mode) (hm : mode ≠ .encodeFragment) (s : Str)
    (h : validEncoded s mode = true) : Clean s := by
  intro x hx
  unfold validEncoded at h
  rw [List.all_eq_true] at h
  exact validEncoded_byte_clean mode hm x (h x hx)

theorem escapedPath_clean (u : URL) : Clean u.EscapedPath := by
  unfold URL.EscapedPath
  split
  · rename_i h
    exact validEncoded_clean _ (by decide) _ h.2.1
  · split
    · intro x hx
      have : ∀ y ∈ str "*", y ≠ B '?' ∧ y ≠ B '#' := by decide!
      exact this x hx
    · exact escape_clean _ (by decide) _

theorem userinfo_clean (ui : Userinfo) : Clean ui.String := by
  unfold Userinfo.String
  refine clean_append (escape_clean _ (by decide) _) ?_
  split
  · exact clean_cons (by decide) (escape_clean _ (by decide) _)
  · exact clean_nil

theorem authorityPart_clean (u : URL) : Clean u.authorityPart := by
  unfold URL.authorityPart
  have hss : Clean (str "//") := by
    intro x hx
    have : ∀ y ∈ str "//", y ≠ B '?' ∧ y ≠ B '#' := by decide!
    exact this x hx
  split
  · split
    · exact clean_nil
    · refine clean_append (clean_append ?_ ?_) ?_
      · split
        · exact hss
        · exact clean_nil
      · split
        · exact clean_append (userinfo_clean _) (clean_cons (by decide) clean_nil)
        · exact clean_nil
      · split
        · exact escape_clean _ (by decide) _
        · exact clean_nil
  · exact clean_nil

theorem pathPart_clean (u : URL) : Clean u.pathPart := by
  unfold URL.pathPart
  have hds : Clean (str "./") := by
    intro x hx
    have : ∀ y ∈ str "./", y ≠ B '?' ∧ y ≠ B '#' := by decide!
    exact this x hx
  refine clean_append (clean_append ?_ ?_) (escapedPath_clean u)
  · split
    · exact clean_cons (by decide) clean_nil
    · exact clean_nil
  · split
    · exact hds
    · exact clean_nil

theorem cutByte_of_not_mem (sep : Byte) (s : Str) (h : sep ∉ s) : cutByte sep s = (s, []) := by
  induction s with
  | nil => rfl
  | cons c cs ih =>
    have hc : c ≠ sep := fun e => h (by simp [e])
    have hcs : sep ∉ cs := fun e => h (by simp [e])
    simp [cutByte, hc, ih hcs]

theorem cutByte_append_left (sep : Byte) (a t : Str) (h : sep ∉ a) :
    cutByte sep (a ++ t) = (a ++ (cutByte sep t).1, (cutByte sep t).2) := by
  induction a with
  | nil => simp
  | cons c cs ih =>
    have hc : c ≠ sep := fun e => h (by simp [e])
    have hcs : sep ∉ cs := fun e => h (by simp [e])
    simp [cutByte, hc, ih hcs]

/-- The text `String` writes has the query it was given as its query component. -/
theorem rawQueryOf_String (u : URL) (hs : Clean u.Scheme) (ho : Clean u.Opaque)
    (hq : B '#' ∉ u.RawQuery) : rawQueryOf u.String = u.RawQuery := by
  have hP : Clean (u.schemePart ++
      (if u.Opaque ≠ [] then u.Opaque else u.authorityPart ++ u.pathPart)) := by
    refine clean_append ?_ ?_
    · unfold URL.schemePart
      split
      · exact clean_append hs (clean_cons (by decide) clean_nil)
      · exact clean_nil
    · split
      · exact ho
      · exact clean_append (authorityPart_clean u) (pathPart_clean u)
  generalize hPdef : u.schemePart ++
      (if u.Opaque ≠ [] then u.Opaque else u.authorityPart ++ u.pathPart) = P at hP
  have hPq : B '?' ∉ P := fun h => (hP _ h).1 rfl
  have hPh : B '#' ∉ P := fun h => (hP _ h).2 rfl
  have hS : u.String = P ++ (if u.ForceQuery ∨ u.RawQuery ≠ [] then B '?' :: u.RawQuery else []) ++
      (if u.Fragment ≠ [] then B '#' :: u.EscapedFragment else []) := by
    rw [← hPdef]
    rfl
  generalize hQ : (if u.ForceQuery ∨ u.RawQuery ≠ [] then B '?' :: u.RawQuery else []) = Q at hS
  have hQh : B '#' ∉ Q := by
    rw [← hQ]
    split
    · intro hm
      rcases List.mem_cons.1 hm with h | h
      · exact absurd h (by decide)
      · exact hq h
    · simp
  have hQ2 : (cutByte (B '?') (P ++ Q)).2 = u.RawQuery := by
    rw [cutByte_append_left _ _ _ hPq, ← hQ]
    split
    · simp [cutByte]
    · rename_i hn
      have : u.RawQuery = [] := by
        by_contra hne
        exact hn (Or.inr hne)
      simp [cutByte, this]
  have hcut : (cutByte (B '#') u.String).1 = P ++ Q := by
    rw [hS]
    split
    · rw [cutByte_append _ _ _ (by
        intro hm
        rcases List.mem_append.1 hm with h | h
        · exact hPh h
        · exact hQh h)]
    · rw [List.append_nil, cutByte_of_not_mem _ _ (by
        intro hm
        rcases List.mem_append.1 hm with h | h
        · exact hPh h
        · exact hQh h)]
  unfold rawQueryOf
  rw [hcut, hQ2]

theorem schemeByte_clean : ∀ c : Byte, isSchemeByte c = true →
    (c ≠ B '?' ∧ c ≠ B '#') ∧ (lowerByte c ≠ B '?' ∧ lowerByte c ≠ B '#') := by decide!

theorem getSchemeAux_spec (raw : Str) (cs seen sch rest : Str)
    (hseen : ∀ x ∈ seen, isSchemeByte x = true)
    (h : getSchemeAux raw cs seen = some (sch, rest)) :
    (sch = [] ∧ rest = raw) ∨
      (seen.reverse ++ cs = sch ++ B ':' :: rest ∧ ∀ x ∈ sch, isSchemeByte x = true) := by
  induction cs generalizing seen with
  | nil =>
    simp only [getSchemeAux, Option.some.injEq, Prod.mk.injEq] at h
    exact Or.inl ⟨h.1.symm, h.2.symm⟩
  | cons c cs ih =>
    rw [getSchemeAux] at h
    have hstep : isSchemeByte c = true →
        getSchemeAux raw cs (c :: seen) = some (sch, rest) →
        (sch = [] ∧ rest = raw) ∨
          (seen.reverse ++ c :: cs = sch ++ B ':' :: rest ∧ ∀ x ∈ sch, isSchemeByte x = true) := by
      intro hc h'
      have := ih (c :: seen) (by
        intro x hx
        rcases List.mem_cons.1 hx with e | e
        · exact e ▸ hc
        · exact hseen x e) h'
      simpa using this
    by_cases ha : isAlpha c = true
    · rw [if_pos ha] at h
      exact hstep (by simp [isSchemeByte, ha]) h
    · rw [if_neg ha] at h
      by_cases hd : isDigit c = true ∨ c = B '+' ∨ c = B '-' ∨ c = B '.'
      · rw [if_pos hd] at h
        by_cases hs : seen = []
        · rw [if_pos hs] at h
          simp only [Option.some.injEq, Prod.mk.injEq] at h
          exact Or.inl ⟨h.1.symm, h.2.symm⟩
        · rw [if_neg hs] at h
          refine hstep ?_ h
          rcases hd with e | e | e | e <;> simp [isSchemeByte, e]
      · rw [if_neg hd] at h
        by_cases hcol : c = B ':'
        · rw [if_pos hcol] at h
          by_cases hs : seen = []
          · simp [hs] at h
          · rw [if_neg hs] at h
            simp only [Option.some.injEq, Prod.mk.injEq] at h
            obtain ⟨h1, h2⟩ := h
            subst h1 h2 hcol
            exact Or.inr ⟨rfl, by simpa using hseen⟩
        · rw [if_neg hcol] at h
          simp only [Option.some.injEq, Prod.mk.injEq] at h
          exact Or.inl ⟨h.1.symm, h.2.symm⟩

theorem getScheme_spec (raw sch rest : Str) (h : getScheme raw = some (sch, rest)) :
    (sch = [] ∧ rest = raw) ∨
      (raw = sch ++ B ':' :: rest ∧ ∀ x ∈ sch, isSchemeByte x = true) := by
  have := getSchemeAux_spec raw raw [] sch rest (by simp) h
  simpa using this

theorem cutByte_force (sep : Byte) (s : Str) (h1 : s.getLast? = some sep)
    (h2 : s.count sep = 1) : cutByte sep s = (s.dropLast, []) := by
  obtain ⟨init, rfl⟩ : ∃ init, s = init ++ [sep] := by
    rw [List.getLast?_eq_some_iff] at h1
    exact h1
  have hc : init.count sep = 0 := by
    simp at h2
    exact h2
  have hn : sep ∉ init := List.count_eq_zero.1 hc
  rw [cutByte_append _ _ _ hn]
  simp

theorem toLower_clean (sch : Str) (h : ∀ x ∈ sch, isSchemeByte x = true) : Clean (toLower sch) := by
  intro x hx
  simp only [toLower, List.mem_map] at hx
  obtain ⟨c, hc, rfl⟩ := hx
  exact (schemeByte_clean c (h c hc)).2

theorem cutByte_fst_not_mem (sep : Byte) (s : Str) : sep ∉ (cutByte sep s).1 := by
  induction s with
  | nil => simp [cutByte]
  | cons c cs ih =>
    by_cases hc : c = sep
    · simp [cutByte, hc]
    · simp only [cutByte, hc, if_false, List.mem_cons, not_or]
      exact ⟨fun e => hc e.symm, ih⟩

theorem cutByte_fst_subset (sep : Byte) (s : Str) : ∀ x ∈ (cutByte sep s).1, x ∈ s := by
  induction s with
  | nil => simp [cutByte]
  | cons c cs ih =>
    intro x hx
    by_cases hc : c = sep
    · simp [cutByte, hc] at hx
    · simp only [cutByte, hc, if_false, List.mem_cons] at hx ⊢
      rcases hx with e | e
      · exact Or.inl e
      · exact Or.inr (ih x e)

theorem parseNoFragment_spec (r : Str) (u : URL) (h : parseNoFragment r = some u) :
    u.RawQuery = (cutByte (B '?') r).2 ∧ Clean u.Scheme ∧
      (B '?' ∉ u.Opaque ∧ ∀ x ∈ u.Opaque, x ∈ r) := by
  unfold parseNoFragment at h
  split at h
  · exact absurd h (by simp)
  split at h
  · rename_i hstar
    simp only [Option.some.injEq] at h
    subst h hstar
    exact ⟨by decide, clean_nil, by simp [emptyURL], by simp [emptyURL]⟩
  split at h
  · exact absurd h (by simp)
  rename_i scheme rest0 hsch
  have hrest : (if (decide (rest0.getLast? = some (B '?')) && decide (rest0.count (B '?') = 1)) = true
      then rest0.dropLast else (cutByte (B '?') rest0).1) = (cutByte (B '?') rest0).1 := by
    split
    · rename_i hf
      simp only [Bool.and_eq_true, decide_eq_true_eq] at hf
      rw [cutByte_force _ _ hf.1 hf.2]
    · rfl
  have hrq : (if (decide (rest0.getLast? = some (B '?')) && decide (rest0.count (B '?') = 1)) = true
      then ([] : Str) else (cutByte (B '?') rest0).2) = (cutByte (B '?') rest0).2 := by
    split
    · rename_i hf
      simp only [Bool.and_eq_true, decide_eq_true_eq] at hf
      rw [cutByte_force _ _ hf.1 hf.2]
    · rfl
  have hfacts : (cutByte (B '?') rest0).2 = (cutByte (B '?') r).2 ∧ Clean (toLower scheme) ∧
      ∀ x ∈ rest0, x ∈ r := by
    rcases getScheme_spec r scheme rest0 hsch with ⟨h1, h2⟩ | ⟨h1, h2⟩
    · subst h1 h2
      exact ⟨rfl, clean_nil, fun x hx => hx⟩
    · have hn : B '?' ∉ scheme ++ [B ':'] := by
        intro hm
        rcases List.mem_append.1 hm with e | e
        · exact (schemeByte_clean _ (h2 _ e)).1.1 rfl
        · simp at e
          exact absurd e (by decide)
      have hr : r = (scheme ++ [B ':']) ++ rest0 := by rw [h1]; simp
      refine ⟨?_, toLower_clean scheme h2, ?_⟩
      · rw [hr, cutByte_append_left _ _ _ hn]
      · intro x hx
        rw [hr]
        exact List.mem_append_right _ hx
  obtain ⟨hq, hsc, hsub⟩ := hfacts
  have hno : B '?' ∉ (cutByte (B '?') rest0).1 := cutByte_fst_not_mem _ _
  have hsub' : ∀ x ∈ (cutByte (B '?') rest0).1, x ∈ r :=
    fun x hx => hsub x (cutByte_fst_subset _ _ x hx)
  dsimp only at h
  simp only [hrest, hrq] at h
  split at h
  · simp only [Option.some.injEq] at h
    subst h
    exact ⟨hq, hsc, hno, hsub'⟩
  split at h
  · exact absurd h (by simp)
  split at h
  · split at h
    · exact absurd h (by simp)
    · simp only [Option.map_eq_some'] at h
      obtain ⟨p, _, rfl⟩ := h
      exact ⟨hq, hsc, by simp [emptyURL], by simp [emptyURL]⟩
  · simp only [Option.map_eq_some'] at h
    obtain ⟨p, _, rfl⟩ := h
    exact ⟨hq, hsc, by simp [emptyURL], by simp [emptyURL]⟩

theorem Parse_spec (s : Str) (u : URL) (h : Parse s = some u) :
    u.RawQuery = rawQueryOf s ∧ Clean u.Scheme ∧ Clean u.Opaque := by
  unfold Parse at h
  split at h
  · exact absurd h (by simp)
  rename_i url hurl
  obtain ⟨h1, h2, h3, h4⟩ := parseNoFragment_spec _ _ hurl
  have hO : Clean url.Opaque := by
    intro x hx
    refine ⟨fun e => h3 (e ▸ hx), fun e => ?_⟩
    exact cutByte_fst_not_mem (B '#') s (e ▸ h4 x hx)
  split at h
  · simp only [Option.some.injEq] at h
    subst h
    exact ⟨h1, h2, hO⟩
  · simp only [Option.map_eq_some'] at h
    obtain ⟨f, _, rfl⟩ := h
    exact ⟨h1, h2, hO⟩

theorem mem_joinByte (sep : Byte) (segs : List Str) (x : Byte) (h : x ∈ joinByte sep segs) :
    x = sep ∨ ∃ s ∈ segs, x ∈ s := by
  induction segs with
  | nil => simp [joinByte] at h
  | cons p ps ih =>
    cases ps with
    | nil => exact Or.inr ⟨p, by simp, by simpa [joinByte] using h⟩
    | cons q qs =>
      rw [joinByte] at h
      rcases List.mem_append.1 h with e | e
      · exact Or.inr ⟨p, by simp, e⟩
      · rcases List.mem_cons.1 e with e | e
        · exact Or.inl e
        · rcases ih e with e | ⟨s, hs, hx⟩
          · exact Or.inl e
          · exact Or.inr ⟨s, List.mem_cons_of_mem _ hs, hx⟩

theorem Encode_no_hash (m : Values) : B '#' ∉ m.Encode := by
  intro h
  rcases mem_joinByte _ _ _ h with e | ⟨s, hs, hx⟩
  · exact absurd e (by decide)
  · rw [encodeSegments_eq, List.mem_map] at hs
    obtain ⟨kv, _, rfl⟩ := hs
    rcases List.mem_append.1 hx with e | e
    · exact (escape_clean _ (by decide) _ _ e).2 rfl
    · rcases List.mem_cons.1 e with e | e
      · exact absurd e (by decide)
      · exact (escape_clean _ (by decide) _ _ e).2 rfl

/-- After `Del(k)` and `Encode`, the parsed query has no key `k`. -/
theorem Query_Encode_Del (m : Values) (k : Str) :
    (Query (m.Del k).Encode).lookup k = none := by
  rw [Query_Encode, lookup_foldl_add]
  have hperm : ((m.Del k).insertionSort (fun a b => strLe a.1 b.1 = true)).filter
      (fun e => e.1 = k) = [] := by
    have hp := (List.perm_insertionSort (fun (a b : Str × List Str) => strLe a.1 b.1 = true)
      (m.Del k)).filter (fun e => decide (e.1 = k))
    have h0 : (m.Del k).filter (fun e => decide (e.1 = k)) = [] := by
      simp [Values.Del, List.filter_filter]
    rw [h0] at hp
    exact List.perm_nil.1 hp
  have hv : valsOf k (pairsOf (m.Del k)) = [] := by
    unfold pairsOf
    rw [valsOf_flatMap, hperm]
    rfl
  simp [hv]

theorem isPrefixOf_cons_ne (a c : Byte) (p rest : Str) (h : a ≠ c) :
    (a :: p).isPrefixOf (c :: rest) = false := by
  simp [List.isPrefixOf, h]

theorem isPrefixOf_append_false (p q rest : Str)
    (h : (p.take q.length).isPrefixOf q = false) : p.isPrefixOf (q ++ rest) = false := by
  induction p generalizing q with
  | nil => simp at h
  | cons a p ih =>
    cases q with
    | nil => simp at h
    | cons b q =>
      simp only [List.length_cons, List.take_succ_cons, List.isPrefixOf, Bool.and_eq_false_iff,
        List.cons_append] at h ⊢
      rcases h with h | h
      · exact Or.inl h
      · exact Or.inr (ih q h)

theorem unescapeBasicAux_skip (l rest : Str) :
    unescapeBasicAux l.length (l ++ rest) = unescapeBasicAux 0 rest := by
  induction l with
  | nil => rfl
  | cons c cs ih => simpa [unescapeBasicAux] using ih

theorem unescapeBasicAux_zero_cons (c : Byte) (cs : Str) :
    unescapeBasicAux 0 (c :: cs) =
      if (str "&amp;").isPrefixOf (c :: cs) then B '&' :: unescapeBasicAux 4 cs
      else if (str "&lt;").isPrefixOf (c :: cs) then B '<' :: unescapeBasicAux 3 cs
      else if (str "&gt;").isPrefixOf (c :: cs) then B '>' :: unescapeBasicAux 3 cs
      else if (str "&#34;").isPrefixOf (c :: cs) then B '"' :: unescapeBasicAux 4 cs
      else if (str "&#39;").isPrefixOf (c :: cs) then B '\'' :: unescapeBasicAux 4 cs
      else c :: unescapeBasicAux 0 cs := by
  rw [unescapeBasicAux]

theorem unescapeBasicAux_escapeByte (c : Byte) (rest : Str) :
    unescapeBasicAux 0 (htmlEscapeByte c ++ rest) = c :: unescapeBasicAux 0 rest := by
  have e1 : str "&amp;" = B '&' :: str "amp;" := by decide
  have e2 : str "&lt;" = B '&' :: str "lt;" := by decide
  have e3 : str "&gt;" = B '&' :: str "gt;" := by decide
  have e4 : str "&#34;" = B '&' :: str "#34;" := by decide
  have e5 : str "&#39;" = B '&' :: str "#39;" := by decide
  by_cases h1 : c = B '&'
  · subst h1
    have he : htmlEscapeByte (B '&') = B '&' :: str "amp;" := by decide
    rw [he, List.cons_append, unescapeBasicAux_zero_cons]
    have c1 : (str "&amp;").isPrefixOf (B '&' :: (str "amp;" ++ rest)) = true := by
      rw [e1]; exact isPrefixOf_append (B '&' :: str "amp;") rest
    rw [if_pos c1]
    exact congrArg _ (unescapeBasicAux_skip (str "amp;") rest)
  by_cases h2 : c = B '\''
  · subst h2
    have he : htmlEscapeByte (B '\'') = B '&' :: str "#39;" := by decide
    rw [he, List.cons_append, unescapeBasicAux_zero_cons]
    have c1 : (str "&amp;").isPrefixOf (B '&' :: (str "#39;" ++ rest)) = false :=
      isPrefixOf_append_false _ (B '&' :: str "#39;") rest (by decide)
    have c2 : (str "&lt;").isPrefixOf (B '&' :: (str "#39;" ++ rest)) = false :=
      isPrefixOf_append_false _ (B '&' :: str "#39;") rest (by decide)
    have c3 : (str "&gt;").isPrefixOf (B '&' :: (str "#39;" ++ rest)) = false :=
      isPrefixOf_append_false _ (B '&' :: str "#39;") rest (by decide)
    have c4 : (str "&#34;").isPrefixOf (B '&' :: (str "#39;" ++ rest)) = false :=
      isPrefixOf_append_false _ (B '&' :: str "#39;") rest (by decide)
    have c5 : (str "&#39;").isPrefixOf (B '&' :: (str "#39;" ++ rest)) = true := by
      rw [e5]; exact isPrefixOf_append (B '&' :: str "#39;") rest
    simp only [c1, c2, c3, c4, c5, Bool.false_eq_true, if_false, if_true]
    exact congrArg _ (unescapeBasicAux_skip (str "#39;") rest)
  by_cases h3 : c = B '<'
  · subst h3
    have he : htmlEscapeByte (B '<') = B '&' :: str "lt;" := by decide
    rw [he, List.cons_append, unescapeBasicAux_zero_cons]
    have c1 : (str "&amp;").isPrefixOf (B '&' :: (str "lt;" ++ rest)) = false :=
      isPrefixOf_append_false _ (B '&' :: str "lt;") rest (by decide)
    have c2 : (str "&lt;").isPrefixOf (B '&' :: (str "lt;" ++ rest)) = true := by
      rw [e2]; exact isPrefixOf_append (B '&' :: str "lt;") rest
    simp only [c1, c2, Bool.false_eq_true, if_false, if_true]
    exact congrArg _ (unescapeBasicAux_skip (str "lt;") rest)
  by_cases h4 : c = B '>'
  · subst h4
    have he : htmlEscapeByte (B '>') = B '&' :: str "gt;" := by decide
    rw [he, List.cons_append, unescapeBasicAux_zero_cons]
    have c1 : (str "&amp;").isPrefixOf (B '&' :: (str "gt;" ++ rest)) = false :=
      isPrefixOf_append_false _ (B '&' :: str "gt;") rest (by decide)
    have c2 : (str "&lt;").isPrefixOf (B '&' :: (str "gt;" ++ rest)) = false :=
      isPrefixOf_append_false _ (B '&' :: str "gt;") rest (by decide)
    have c3 : (str "&gt;").isPrefixOf (B '&' :: (str "gt;" ++ rest)) = true := by
      rw [e3]; exact isPrefixOf_append (B '&' :: str "gt;") rest
    simp only [c1, c2, c3, Bool.false_eq_true, if_false, if_true]
    exact congrArg _ (unescapeBasicAux_skip (str "gt;") rest)
  by_cases h5 : c = B '"'
  · subst h5
    have he : htmlEscapeByte (B '"') = B '&' :: str "#34;" := by decide
    rw [he, List.cons_append, unescapeBasicAux_zero_cons]
    have c1 : (str "&amp;").isPrefixOf (B '&' :: (str "#34;" ++ rest)) = false :=
      isPrefixOf_append_false _ (B '&' :: str "#34;") rest (by decide)
    have c2 : (str "&lt;").isPrefixOf (B '&' :: (str "#34;" ++ rest)) = false :=
      isPrefixOf_append_false _ (B '&' :: str "#34;") rest (by decide)
    have c3 : (str "&gt;").isPrefixOf (B '&' :: (str "#34;" ++ rest)) = false :=
      isPrefixOf_append_false _ (B '&' :: str "#34;") rest (by decide)
    have c4 : (str "&#34;").isPrefixOf (B '&' :: (str "#34;" ++ rest)) = true := by
      rw [e4]; exact isPrefixOf_append (B '&' :: str "#34;") rest
    simp only [c1, c2, c3, c4, Bool.false_eq_true, if_false, if_true]
    exact congrArg _ (unescapeBasicAux_skip (str "#34;") rest)
  unfold htmlEscapeByte
  simp only [h1, h2, h3, h4, h5, if_false, List.singleton_append]
  have hne : B '&' ≠ c := fun e => h1 e.symm
  rw [unescapeBasicAux_zero_cons, e1, e2, e3, e4, e5]
  simp only [isPrefixOf_cons_ne _ _ _ _ hne, Bool.false_eq_true, if_false]

theorem unescapeBasic_htmlEscape (s : Str) : unescapeBasic (htmlEscape s) = s := by
  unfold unescapeBasic htmlEscape
  induction s with
  | nil => rfl
  | cons c cs ih => rw [List.flatMap_cons, unescapeBasicAux_escapeByte, ih]

theorem replacement_eq (hu : Str → Str) (ows m r : Str) (h : replacement hu ows m = some r) :
    ∃ parsed, Parse (hu (TrimSuffix (TrimPrefix m (str "xlink:href=\"")) (str "\""))) = some parsed ∧
      r = str "xlink:href=\"" ++
        htmlEscape ({ parsed with
          Path := ows, RawQuery := ((Query parsed.RawQuery).Del (str "MAP")).Encode } : URL).String ++
        str "\"" := by
  unfold replacement at h
  dsimp only at h
  split at h
  · exact absurd h (by simp)
  · rename_i parsed hp
    simp only [Option.some.injEq] at h
    exact ⟨parsed, hp, h.symm⟩

theorem rewriteLoop_replaced (hu : Str → Str) (ows : Str) (ms : List Str) (doc : Str)
    (rep0 : List (Str × Str)) (doc' : Str) (rep : List (Str × Str))
    (h : rewriteLoop hu ows ms doc rep0 = some (doc', rep)) :
    (∀ m r, rep0.lookup m = some r → rep.lookup m = some r) ∧
    ∀ m ∈ ms, ∃ r, rep.lookup m = some r ∧
      (rep0.lookup m = some r ∨ replacement hu ows m = some r) := by
  induction ms generalizing doc rep0 with
  | nil =>
    simp only [rewriteLoop, Option.some.injEq, Prod.mk.injEq] at h
    obtain ⟨_, rfl⟩ := h
    exact ⟨fun m r hr => hr, by simp⟩
  | cons m ms ih =>
    rw [rewriteLoop] at h
    cases hl : rep0.lookup m with
    | some r0 =>
      simp only [hl] at h
      obtain ⟨hmono, hall⟩ := ih doc rep0 h
      refine ⟨hmono, ?_⟩
      intro m' hm'
      rcases List.mem_cons.1 hm' with rfl | hm'
      · exact ⟨r0, hmono _ _ hl, Or.inl hl⟩
      · exact hall m' hm'
    | none =>
      simp only [hl] at h
      cases hr : replacement hu ows m with
      | none => simp [hr] at h
      | some r =>
        simp only [hr] at h
        obtain ⟨hmono, hall⟩ := ih _ _ h
        have hhead : ((m, r) :: rep0).lookup m = some r := by simp [List.lookup]
        refine ⟨?_, ?_⟩
        · intro m' r' hr'
          apply hmono
          by_cases e : m' = m
          · subst e
            rw [hl] at hr'
            exact absurd hr' (by simp)
          · have : (m' == m) = false := by simpa using e
            simp [List.lookup, this, hr']
        · intro m' hm'
          rcases List.mem_cons.1 hm' with rfl | hm'
          · exact ⟨r, hmono _ _ hhead, Or.inr hr⟩
          · obtain ⟨r', h1, h2⟩ := hall m' hm'
            refine ⟨r', h1, ?_⟩
            rcases h2 with h2 | h2
            · by_cases e : m' = m
              · subst e
                rw [hhead] at h2
                simp only [Option.some.injEq] at h2
                subst h2
                exact Or.inr hr
              · have : (m' == m) = false := by simpa using e
                simp only [List.lookup, this] at h2
                exact Or.inl h2
            · exact Or.inr h2

theorem rewritten_query_no_MAP (hu : Str → Str) (hinv : ∀ s, hu (htmlEscape s) = s)
    (parsed : URL) (ows x : Str) (hp : Parse x = some parsed) :
    (Query (rawQueryOf (hu (htmlEscape ({ parsed with
      Path := ows, RawQuery := ((Query parsed.RawQuery).Del (str "MAP")).Encode } : URL).String)))).lookup
        (str "MAP") = none := by
  obtain ⟨_, hs, ho⟩ := Parse_spec x parsed hp
  rw [hinv, rawQueryOf_String ({ parsed with
      Path := ows, RawQuery := ((Query parsed.RawQuery).Del (str "MAP")).Encode } : URL) hs ho
    (Encode_no_hash _)]
  exact Query_Encode_Del _ _

/-! ## The form of the rewritten href -/

theorem flatten_cons (it : Item) (rest : List Item) :
    flatten (it :: rest) = it.bytes ++ flatten rest := by
  simp [flatten, List.flatMap_cons]

theorem matchAt_pos (d : Str) (n : Nat) (h : matchAt d = some n) : 1 ≤ n ∧ n ≤ d.length := by
  obtain ⟨m, post, hd, hl, hM⟩ := matchAt_sound d n h
  obtain ⟨s, a, b, _, _, _, _, _, rfl⟩ := hM
  subst hd
  rw [← hl]
  have h1 : (str "\"").length = 1 := by decide
  simp only [List.length_append, h1]
  omega

theorem substAux_eq_flatten (f : Str → Str) (d : Str) :
    ∀ k, substAux f k d = flatten ((scanAux k d).map (Item.map f)) := by
  induction d with
  | nil => intro k; cases k <;> rfl
  | cons c cs ih =>
    intro k
    cases k with
    | succ k => simpa [substAux, scanAux] using ih k
    | zero =>
      rw [substAux, scanAux]
      cases h : matchAt (c :: cs) with
      | none => simp [flatten_cons, Item.map, Item.bytes, ih 0]
      | some n => simp [flatten_cons, Item.map, Item.bytes, ih (n - 1)]

theorem findAllAux_eq_sitesOf (d : Str) : ∀ k, findAllAux k d = sitesOf (scanAux k d) := by
  induction d with
  | nil => intro k; cases k <;> rfl
  | cons c cs ih =>
    intro k
    cases k with
    | succ k => simpa [findAllAux, scanAux] using ih k
    | zero =>
      rw [findAllAux, scanAux]
      cases h : matchAt (c :: cs) with
      | none => simp [sitesOf, ih 0]
      | some n => simp [sitesOf, ih (n - 1)]

theorem flatten_scanAux (d : Str) : ∀ k, k ≤ d.length → flatten (scanAux k d) = d.drop k := by
  induction d with
  | nil => intro k _; cases k <;> rfl
  | cons c cs ih =>
    intro k hk
    cases k with
    | succ k =>
      rw [scanAux, List.drop_succ_cons]
      exact ih k (by simpa using hk)
    | zero =>
      rw [scanAux]
      cases h : matchAt (c :: cs) with
      | none =>
        simp only [flatten_cons, Item.bytes, List.drop_zero, List.singleton_append]
        rw [ih 0 (by omega)]
        rfl
      | some n =>
        obtain ⟨h1, h2⟩ := matchAt_pos _ _ h
        simp only [flatten_cons, Item.bytes, List.drop_zero]
        rw [ih (n - 1) (by simp at h2; omega)]
        obtain ⟨n', rfl⟩ : ∃ n', n = n' + 1 := ⟨n - 1, by omega⟩
        simp only [Nat.add_sub_cancel, List.take_succ_cons, List.cons_append,
          List.take_append_drop]

theorem scanned_scanAux (d : Str) : ∀ k, k ≤ d.length → Scanned (scanAux k d) := by
  induction d with
  | nil => intro k _; cases k <;> exact Scanned.nil
  | cons c cs ih =>
    intro k hk
    cases k with
    | succ k =>
      rw [scanAux]
      exact ih k (by simpa using hk)
    | zero =>
      rw [scanAux]
      cases h : matchAt (c :: cs) with
      | none =>
        refine Scanned.gap c _ ?_ (ih 0 (by omega))
        rw [flatten_scanAux cs 0 (by omega)]
        exact h
      | some n =>
        obtain ⟨h1, h2⟩ := matchAt_pos _ _ h
        obtain ⟨m, post, hd, hl, hM⟩ := matchAt_sound _ _ h
        refine Scanned.site _ _ ?_ (ih (n - 1) (by simp at h2; omega))
        have : (c :: cs).take n = m := by
          rw [hd, ← hl]
          simp
        rw [this]
        exact hM

theorem xh0_no_quote : B '"' ∉ str "xlink:href=" := by decide

theorem xh0_ne_nil : str "xlink:href=" ≠ [] := by decide

theorem htmlEscapeByte_no_quote : ∀ c : Byte,
    (htmlEscapeByte c).all (fun x => x ≠ B '"') = true := by decide!

theorem htmlEscape_no_quote (s : Str) : B '"' ∉ htmlEscape s := by
  intro hx
  simp only [htmlEscape, List.mem_flatMap] at hx
  obtain ⟨c, _, hxc⟩ := hx
  have h := htmlEscapeByte_no_quote c
  rw [List.all_eq_true] at h
  simpa using h _ hxc

theorem twoQuote_of_matches (m : Str) (h : Matches m) : TwoQuote m := by
  obtain ⟨s, a, b, hs, _, _, hqa, hqb, rfl⟩ := h
  refine ⟨str "http" ++ s ++ str "://" ++ a ++ str "MAP=" ++ b, ?_, ?_⟩
  · have h1 : B '"' ∉ str "http" := by decide
    have h2 : B '"' ∉ str "://" := by decide
    have h3 : B '"' ∉ str "MAP=" := by decide
    have h4 : B '"' ∉ s := by
      rcases hs with rfl | rfl
      · simp
      · decide
    simp only [List.mem_append, not_or]
    exact ⟨⟨⟨⟨⟨h1, h4⟩, h2⟩, hqa⟩, h3⟩, hqb⟩
  · have e1 : str "xlink:href=\"http" = str "xlink:href=" ++ B '"' :: str "http" := by decide
    have e2 : str "\"" = [B '"'] := by decide
    rw [e1, e2]
    simp

theorem twoQuote_of_replacement (hu : Str → Str) (ows m r : Str)
    (h : replacement hu ows m = some r) : TwoQuote r := by
  obtain ⟨parsed, _, rfl⟩ := replacement_eq hu ows m r h
  refine ⟨htmlEscape ({ parsed with
    Path := ows, RawQuery := ((Query parsed.RawQuery).Del (str "MAP")).Encode } : URL).String,
    htmlEscape_no_quote _, ?_⟩
  have e1 : str "xlink:href=\"" = str "xlink:href=" ++ [B '"'] := by decide
  have e2 : str "\"" = [B '"'] := by decide
  rw [e1, e2]
  simp

theorem cutByte_eq_of_mem (sep : Byte) (W : Str) (h : sep ∈ W) :
    W = (cutByte sep W).1 ++ sep :: (cutByte sep W).2 := by
  induction W with
  | nil => simp at h
  | cons c cs ih =>
    by_cases hc : c = sep
    · simp [cutByte, hc]
    · have hmem : sep ∈ cs := by
        rcases List.mem_cons.1 h with e | e
        · exact absurd e.symm hc
        · exact e
      simp only [cutByte, hc, if_false, List.cons_append]
      rw [← ih hmem]

/-- A match that is a prefix of a text fixes the text's first two quote-delimited fields. -/
theorem prefix_twoQuote (m Y e : Str)
    (hm : m = str "xlink:href=" ++ B '"' :: (e ++ [B '"'])) :
    m <+: Y ↔ ∃ t, Y = str "xlink:href=" ++ B '"' :: (e ++ B '"' :: t) := by
  constructor
  · rintro ⟨t, rfl⟩
    exact ⟨t, by rw [hm]; simp⟩
  · rintro ⟨t, rfl⟩
    exact ⟨t, by rw [hm]; simp⟩

theorem first_field_of_prefix (m Y : Str) (hm : TwoQuote m) (h : m <+: Y) :
    (cutByte (B '"') Y).1 = str "xlink:href=" := by
  obtain ⟨e, he, rfl⟩ := hm
  obtain ⟨t, rfl⟩ := (prefix_twoQuote _ Y e rfl).1 h
  rw [cutByte_append _ _ _ xh0_no_quote]

/-- No match starts strictly inside a match or a written attribute that does not end
in `xlink:href="`. -/
theorem no_prefix_inside (m X X0 X' W : Str) (hm : TwoQuote m) (hX : TwoQuote X)
    (hsplit : X = X0 ++ X') (h0 : X0 ≠ []) (h1 : X' ≠ [])
    (hsuf : ¬ (str "xlink:href=" ++ [B '"']) <:+ X) : ¬ m <+: X' ++ W := by
  intro hp
  have hf := first_field_of_prefix m _ hm hp
  obtain ⟨eX, heX, hXe⟩ := hX
  rw [hXe] at hsplit
  rcases List.append_eq_append_iff.1 hsplit with ⟨a', ha1, ha2⟩ | ⟨c', hc1, hc2⟩
  · -- X0 reaches past the first field
    cases a' with
    | nil =>
      simp only [List.nil_append] at ha2
      rw [← ha2] at hf
      simp [cutByte] at hf
      exact xh0_ne_nil hf
    | cons q' a'' =>
      simp only [List.cons_append, List.cons.injEq] at ha2
      obtain ⟨_, ha2⟩ := ha2
      obtain ⟨X'', l, rfl⟩ : ∃ X'' l, X' = X'' ++ [l] :=
        ⟨X'.dropLast, X'.getLast h1, (List.dropLast_append_getLast h1).symm⟩
      rw [← List.append_assoc] at ha2
      have hinj := List.append_inj' ha2 rfl
      obtain ⟨hE, hl⟩ := hinj
      simp only [List.cons.injEq, and_true] at hl
      subst hl
      have hX'' : B '"' ∉ X'' := by
        intro hmem
        exact heX (by rw [hE]; exact List.mem_append_right _ hmem)
      rw [List.append_assoc, List.singleton_append, cutByte_append _ _ _ hX''] at hf
      simp only at hf
      apply hsuf
      rw [hXe, hE, hf]
      exact ⟨str "xlink:href=" ++ B '"' :: a'', by simp⟩
  · -- X' starts inside the first field
    have hc' : B '"' ∉ c' := by
      intro hmem
      exact xh0_no_quote (by rw [hc1]; exact List.mem_append_right _ hmem)
    rw [hc2, List.append_assoc, List.cons_append, cutByte_append _ _ _ hc'] at hf
    simp only at hf
    rw [hf] at hc1
    have := congrArg List.length hc1
    simp at this
    exact h0 this

/-- A match that is a prefix where a match or a written attribute starts is that very
string. -/
theorem prefix_at_site (m X W : Str) (hm : TwoQuote m) (hX : TwoQuote X) (h : m <+: X ++ W) :
    m = X := by
  obtain ⟨em, hem, rfl⟩ := hm
  obtain ⟨eX, heX, rfl⟩ := hX
  obtain ⟨t, ht⟩ := (prefix_twoQuote _ _ em rfl).1 h
  simp only [List.append_assoc, List.cons_append, List.nil_append, List.append_cancel_left_eq,
    List.cons.injEq, true_and] at ht
  have h1 := congrArg (cutByte (B '"')) ht
  rw [cutByte_append _ _ _ heX, cutByte_append _ _ _ hem] at h1
  simp only [Prod.mk.injEq] at h1
  rw [h1.1]

theorem sitesOf_twoQuote (items : List Item) (hS : Scanned items) :
    ∀ s ∈ sitesOf items, Matches s := by
  induction hS with
  | nil => simp [sitesOf]
  | gap c rest _ _ ih => simpa [sitesOf] using ih
  | site s rest hM _ ih =>
    intro x hx
    simp only [sitesOf, List.mem_cons] at hx
    rcases hx with rfl | hx
    · exact hM
    · exact ih x hx

/-- Writing other attributes at the sites changes neither the text before the first
quote nor whether there is a quote. -/
theorem first_field_map (f : Str → Str) (items : List Item)
    (hTQ : ∀ s ∈ sitesOf items, TwoQuote s ∧ TwoQuote (f s)) :
    (cutByte (B '"') (flatten (items.map (Item.map f)))).1 = (cutByte (B '"') (flatten items)).1 ∧
      (B '"' ∈ flatten (items.map (Item.map f)) ↔ B '"' ∈ flatten items) := by
  induction items with
  | nil => simp [flatten]
  | cons it rest ih =>
    cases it with
    | gap c =>
      have ih' := ih (fun s hs => hTQ s (by simpa [sitesOf] using hs))
      simp only [List.map_cons, Item.map, flatten_cons, Item.bytes, List.singleton_append]
      by_cases hc : c = B '"'
      · simp [cutByte, hc]
      · simp only [cutByte, hc, if_false, List.mem_cons]
        refine ⟨by rw [ih'.1], ?_⟩
        constructor
        · rintro (e | e)
          · exact Or.inl e
          · exact Or.inr (ih'.2.1 e)
        · rintro (e | e)
          · exact Or.inl e
          · exact Or.inr (ih'.2.2 e)
    | site s =>
      obtain ⟨⟨e1, he1, hs1⟩, ⟨e2, he2, hs2⟩⟩ := hTQ s (by simp [sitesOf])
      have hA : flatten ((Item.site s :: rest).map (Item.map f)) =
          str "xlink:href=" ++ B '"' :: (e2 ++ B '"' :: flatten (rest.map (Item.map f))) := by
        simp only [List.map_cons, Item.map, flatten_cons, Item.bytes]
        rw [hs2]
        simp
      have hB : flatten (Item.site s :: rest) =
          str "xlink:href=" ++ B '"' :: (e1 ++ B '"' :: flatten rest) := by
        simp only [flatten_cons, Item.bytes]
        rw [hs1]
        simp
      rw [hA, hB, cutByte_append _ _ _ xh0_no_quote, cutByte_append _ _ _ xh0_no_quote]
      simp

/-- A match found after a non-empty quote-free text in the rewritten items is found in
the original items as well. -/
theorem prefix_transfer (m : Str) (hm : TwoQuote m) (f : Str → Str) (items : List Item)
    (hTQ : ∀ s ∈ sitesOf items, TwoQuote s ∧ TwoQuote (f s)) :
    ∀ a : Str, B '"' ∉ a → a ≠ [] → m <+: a ++ flatten (items.map (Item.map f)) →
      m <+: a ++ flatten items := by
  obtain ⟨em, hem, hmeq⟩ := hm
  induction items with
  | nil => intro a _ _ h; simpa [flatten] using h
  | cons it rest ih =>
    intro a ha hane hp
    cases it with
    | gap c =>
      have hTQ' : ∀ s ∈ sitesOf rest, TwoQuote s ∧ TwoQuote (f s) :=
        fun s hs => hTQ s (by simpa [sitesOf] using hs)
      simp only [List.map_cons, Item.map, flatten_cons, Item.bytes, List.singleton_append] at hp ⊢
      by_cases hc : c = B '"'
      · subst hc
        obtain ⟨t, ht⟩ := (prefix_twoQuote m _ em hmeq).1 hp
        have h1 := congrArg (cutByte (B '"')) ht
        rw [cutByte_append _ _ _ ha, cutByte_append _ _ _ xh0_no_quote] at h1
        simp only [Prod.mk.injEq] at h1
        obtain ⟨hax, hW⟩ := h1
        have hff := first_field_map f rest hTQ'
        have hq : B '"' ∈ flatten (rest.map (Item.map f)) := by rw [hW]; simp
        have hfield : (cutByte (B '"') (flatten (rest.map (Item.map f)))).1 = em := by
          rw [hW, cutByte_append _ _ _ hem]
        have hq' := hff.2.1 hq
        have hfield' : (cutByte (B '"') (flatten rest)).1 = em := by rw [← hff.1, hfield]
        have hdec := cutByte_eq_of_mem _ _ hq'
        rw [hfield'] at hdec
        refine (prefix_twoQuote m _ em hmeq).2 ⟨(cutByte (B '"') (flatten rest)).2, ?_⟩
        rw [hax]
        conv_lhs => rw [hdec]
      · have := ih hTQ' (a ++ [c]) (by
            intro hmem
            rcases List.mem_append.1 hmem with e | e
            · exact ha e
            · simp at e
              exact hc e.symm) (by simp) (by simpa using hp)
        simpa using this
    | site s =>
      exfalso
      obtain ⟨_, ⟨e2, he2, hs2⟩⟩ := hTQ s (by simp [sitesOf])
      simp only [List.map_cons, Item.map, flatten_cons, Item.bytes] at hp
      have hf := first_field_of_prefix m _ ⟨em, hem, hmeq⟩ hp
      rw [hs2] at hf
      have hax : B '"' ∉ a ++ str "xlink:href=" := by
        intro hmem
        rcases List.mem_append.1 hmem with e | e
        · exact ha e
        · exact xh0_no_quote e
      have hre : a ++ ((str "xlink:href=" ++ B '"' :: (e2 ++ [B '"'])) ++
          flatten (rest.map (Item.map f))) =
          (a ++ str "xlink:href=") ++ B '"' :: ((e2 ++ [B '"']) ++
            flatten (rest.map (Item.map f))) := by simp
      rw [hre, cutByte_append _ _ _ hax] at hf
      simp only at hf
      have := congrArg List.length hf
      simp at this
      exact hane this

/-- No match starts at a byte the scan passed as a gap, whatever attributes are
written at the later sites. -/
theorem no_prefix_at_gap (m : Str) (hM : Matches m) (f : Str → Str) (c : Byte)
    (rest : List Item) (hS : Scanned (.gap c :: rest))
    (hTQ : ∀ s ∈ sitesOf rest, TwoQuote (f s)) :
    ¬ m <+: c :: flatten (rest.map (Item.map f)) := by
  intro hp
  cases hS with
  | gap _ _ hnone hrest =>
    have hTQ' : ∀ s ∈ sitesOf rest, TwoQuote s ∧ TwoQuote (f s) :=
      fun s hs => ⟨twoQuote_of_matches s (sitesOf_twoQuote rest hrest s hs), hTQ s hs⟩
    have hm := twoQuote_of_matches m hM
    have hc : c ≠ B '"' := by
      rintro rfl
      have hf := first_field_of_prefix m _ hm hp
      simp [cutByte] at hf
      exact xh0_ne_nil hf
    have h2 := prefix_transfer m hm f rest hTQ' [c] (by simpa using fun e => hc e.symm) (by simp)
      (by simpa using hp)
    obtain ⟨post, hpost⟩ := h2
    have := matchAt_complete m post hM
    rw [hpost] at this
    simp only [List.singleton_append] at this
    rw [hnone] at this
    exact absurd this (by simp)

theorem isPrefixOf_false_of_not_prefix (a b : Str) (h : ¬ a <+: b) : a.isPrefixOf b = false := by
  cases hb : a.isPrefixOf b with
  | false => rfl
  | true => exact absurd (List.isPrefixOf_iff_prefix.1 hb) h

theorem replaceAllAux_skip (old new l rest : Str) :
    replaceAllAux old new l.length (l ++ rest) = replaceAllAux old new 0 rest := by
  induction l with
  | nil => rfl
  | cons c cs ih => simpa [replaceAllAux] using ih

theorem replaceAllAux_zero_cons (old new : Str) (c : Byte) (cs : Str) :
    replaceAllAux old new 0 (c :: cs) =
      if old.isPrefixOf (c :: cs) then new ++ replaceAllAux old new (old.length - 1) cs
      else c :: replaceAllAux old new 0 cs := by
  rw [replaceAllAux]

theorem replaceAllAux_at (old new W : Str) (hne : old ≠ []) :
    replaceAllAux old new 0 (old ++ W) = new ++ replaceAllAux old new 0 W := by
  obtain ⟨c, cs, rfl⟩ := List.exists_cons_of_ne_nil hne
  rw [List.cons_append, replaceAllAux_zero_cons]
  have hp : (c :: cs).isPrefixOf (c :: (cs ++ W)) = true := by
    rw [← List.cons_append]
    exact isPrefixOf_append _ _
  rw [if_pos hp]
  simp only [List.length_cons, Nat.add_sub_cancel]
  rw [replaceAllAux_skip]

theorem replaceAllAux_pass (old new : Str) (X W : Str)
    (h : ∀ X0 X', X = X0 ++ X' → X' ≠ [] → ¬ old <+: X' ++ W) :
    replaceAllAux old new 0 (X ++ W) = X ++ replaceAllAux old new 0 W := by
  induction X with
  | nil => rfl
  | cons c cs ih =>
    rw [List.cons_append, replaceAllAux_zero_cons]
    have hn : old.isPrefixOf (c :: (cs ++ W)) = false :=
      isPrefixOf_false_of_not_prefix _ _ (h [] (c :: cs) rfl (by simp))
    rw [hn]
    simp only [Bool.false_eq_true, if_false, List.cons_append, List.cons.injEq, true_and]
    exact ih (fun X0 X' e hne => h (c :: X0) X' (by rw [e]; rfl) hne)

/-- One `strings.ReplaceAll` of the loop: on a document whose sites carry the strings
`f`, replacing the match `m` writes `r` at the sites of `m` and nothing else. -/
theorem replaceAllAux_items (m r : Str) (hM : Matches m) (f : Str → Str) (items : List Item)
    (hS : Scanned items)
    (hTQ : ∀ s ∈ sitesOf items, TwoQuote (f s))
    (hsuf : ∀ s ∈ sitesOf items, ¬ (str "xlink:href=" ++ [B '"']) <:+ f s)
    (hinj : ∀ s ∈ sitesOf items, f s = m → s = m)
    (hfm : f m = m) :
    replaceAllAux m r 0 (flatten (items.map (Item.map f))) =
      flatten (items.map (Item.map (fun x => if x = m then r else f x))) := by
  have hm := twoQuote_of_matches m hM
  have hmne : m ≠ [] := by
    obtain ⟨e, _, rfl⟩ := hm
    simp
  induction hS with
  | nil => rfl
  | gap c rest hnone hrest ih =>
    have hTQ' : ∀ s ∈ sitesOf rest, TwoQuote (f s) := fun s hs => hTQ s (by simpa [sitesOf] using hs)
    have hno := no_prefix_at_gap m hM f c rest (Scanned.gap c rest hnone hrest) hTQ'
    simp only [List.map_cons, Item.map, flatten_cons, Item.bytes, List.singleton_append]
    rw [replaceAllAux_zero_cons]
    have hn : m.isPrefixOf (c :: flatten (rest.map (Item.map f))) = false :=
      isPrefixOf_false_of_not_prefix _ _ hno
    rw [hn]
    simp only [Bool.false_eq_true, if_false, List.cons.injEq, true_and]
    exact ih hTQ' (fun s hs => hsuf s (by simpa [sitesOf] using hs))
      (fun s hs => hinj s (by simpa [sitesOf] using hs))
  | site s rest hMs hrest ih =>
    have ih' := ih (fun x hx => hTQ x (by simp [sitesOf, hx]))
      (fun x hx => hsuf x (by simp [sitesOf, hx]))
      (fun x hx => hinj x (by simp [sitesOf, hx]))
    simp only [List.map_cons, Item.map, flatten_cons, Item.bytes]
    by_cases hfs : f s = m
    · have hsm : s = m := hinj s (by simp [sitesOf]) hfs
      rw [hfs, replaceAllAux_at _ _ _ hmne, ih', if_pos hsm]
    · have hsm : s ≠ m := by
        rintro rfl
        exact hfs hfm
      rw [if_neg hsm, ← ih']
      apply replaceAllAux_pass
      intro X0 X' hsplit hX'
      by_cases hX0 : X0 = []
      · subst hX0
        simp only [List.nil_append] at hsplit
        subst hsplit
        intro hp
        exact hfs (prefix_at_site m _ _ hm (hTQ s (by simp [sitesOf])) hp).symm
      · exact no_prefix_inside m (f s) X0 X' _ hm (hTQ s (by simp [sitesOf])) hsplit hX0 hX'
          (hsuf s (by simp [sitesOf]))

theorem flatten_map_congr (f g : Str → Str) (items : List Item)
    (h : ∀ s ∈ sitesOf items, f s = g s) :
    flatten (items.map (Item.map f)) = flatten (items.map (Item.map g)) := by
  induction items with
  | nil => rfl
  | cons it rest ih =>
    cases it with
    | gap c =>
      simp only [List.map_cons, Item.map, flatten_cons]
      rw [ih (fun s hs => h s (by simpa [sitesOf] using hs))]
    | site s =>
      simp only [List.map_cons, Item.map, flatten_cons, Item.bytes]
      rw [h s (by simp [sitesOf]), ih (fun x hx => h x (by simp [sitesOf, hx]))]

theorem flatten_map_current_nil (items : List Item) :
    flatten (items.map (Item.map (current []))) = flatten items := by
  induction items with
  | nil => rfl
  | cons it rest ih =>
    cases it with
    | gap c => simp only [List.map_cons, Item.map, flatten_cons, ih]
    | site s => simp only [List.map_cons, Item.map, flatten_cons, ih, Item.bytes, current,
        List.lookup, Option.getD_none]

theorem matches_ne_nil (m : Str) (h : Matches m) : m ≠ [] := by
  obtain ⟨e, _, rfl⟩ := twoQuote_of_matches m h
  simp

/-- The loop of `rewriteGetCapabilities` over matches of the document, started on the
document with the strings `current replaced` at its sites, ends on the document with
the strings `current replaced'` at its sites, where `replaced'` holds every match of the
loop. -/
theorem rewriteLoop_items (hu : Str → Str) (ows : Str) (items : List Item) (hS : Scanned items)
    (hparse : ∀ m ∈ sitesOf items, replacement hu ows m ≠ none)
    (hsuf : ∀ m ∈ sitesOf items, ¬ xlinkHref <:+ m ∧
      ∀ r, replacement hu ows m = some r → ¬ xlinkHref <:+ r)
    (hclash : ∀ m ∈ sitesOf items, ∀ m' ∈ sitesOf items, m ≠ m' →
      replacement hu ows m ≠ some m')
    (ms : List Str) (hms : ∀ m ∈ ms, m ∈ sitesOf items) :
    ∀ rep : List (Str × Str), (∀ x r, rep.lookup x = some r → replacement hu ows x = some r) →
      ∃ rep', rewriteLoop hu ows ms (flatten (items.map (Item.map (current rep)))) rep =
          some (flatten (items.map (Item.map (current rep'))), rep') ∧
        (∀ x r, rep'.lookup x = some r → replacement hu ows x = some r) ∧
        (∀ x r, rep.lookup x = some r → rep'.lookup x = some r) ∧
        (∀ m ∈ ms, rep'.lookup m ≠ none) := by
  induction ms with
  | nil =>
    intro rep hinv
    exact ⟨rep, rfl, hinv, fun x r h => h, by simp⟩
  | cons m ms ih =>
    intro rep hinv
    have hmS : m ∈ sitesOf items := hms m (by simp)
    have hms' : ∀ x ∈ ms, x ∈ sitesOf items := fun x hx => hms x (List.mem_cons_of_mem _ hx)
    rw [rewriteLoop]
    cases hl : rep.lookup m with
    | some r0 =>
      obtain ⟨rep', h1, h2, h3, h4⟩ := ih hms' rep hinv
      refine ⟨rep', by simpa using h1, h2, h3, ?_⟩
      intro x hx
      rcases List.mem_cons.1 hx with rfl | hx
      · rw [h3 _ _ hl]
        simp
      · exact h4 x hx
    | none =>
      cases hr : replacement hu ows m with
      | none => exact absurd hr (hparse m hmS)
      | some r =>
        have hM : Matches m := sitesOf_twoQuote items hS m hmS
        have hcur : ∀ s ∈ sitesOf items, current rep s = s ∨
            replacement hu ows s = some (current rep s) := by
          intro s _
          unfold current
          cases hls : rep.lookup s with
          | none => exact Or.inl rfl
          | some r' => exact Or.inr (by simpa using hinv s r' hls)
        have hstep : ReplaceAll (flatten (items.map (Item.map (current rep)))) m r =
            flatten (items.map (Item.map (current ((m, r) :: rep)))) := by
          unfold ReplaceAll
          rw [if_neg (matches_ne_nil m hM)]
          rw [replaceAllAux_items m r hM (current rep) items hS]
          · apply flatten_map_congr
            intro s _
            unfold current
            by_cases e : s = m
            · subst e
              simp [List.lookup]
            · have : (s == m) = false := by simpa using e
              simp [List.lookup, this, e]
          · intro s hs
            rcases hcur s hs with e | e
            · rw [e]
              exact twoQuote_of_matches s (sitesOf_twoQuote items hS s hs)
            · exact twoQuote_of_replacement hu ows s _ e
          · intro s hs
            rcases hcur s hs with e | e
            · rw [e]
              exact (hsuf s hs).1
            · exact (hsuf s hs).2 _ e
          · intro s hs hsm
            rcases hcur s hs with e | e
            · rw [← e, hsm]
            · by_contra hne
              rw [hsm] at e
              exact hclash s hs m hmS hne e
          · unfold current
            rw [hl]
            rfl
        have hinv' : ∀ x r', ((m, r) :: rep).lookup x = some r' →
            replacement hu ows x = some r' := by
          intro x r' hx
          by_cases e : x = m
          · subst e
            simp [List.lookup] at hx
            rw [hr, hx]
          · have : (x == m) = false := by simpa using e
            simp only [List.lookup, this] at hx
            exact hinv x r' hx
        obtain ⟨rep', h1, h2, h3, h4⟩ := ih hms' ((m, r) :: rep) hinv'
        refine ⟨rep', ?_, h2, ?_, ?_⟩
        · simp only []
          rw [hstep]
          exact h1
        · intro x r' hx
          apply h3
          by_cases e : x = m
          · subst e
            rw [hl] at hx
            exact absurd hx (by simp)
          · have : (x == m) = false := by simpa using e
            simp [List.lookup, this, hx]
        · intro x hx
          rcases List.mem_cons.1 hx with rfl | hx
          · rw [h3 x r (by simp [List.lookup])]
            simp
          · exact h4 x hx

/-- The body `rewriteGetCapabilities` installs when the sites do not interfere: the
body read with the written attribute at every site. -/
theorem rewriteGetCapabilities_body (hu : Str → Str) (ows body : Str)
    (hparse : ∀ m ∈ FindAllString body, replacement hu ows m ≠ none)
    (hsuf : ∀ m ∈ FindAllString body, ¬ xlinkHref <:+ m ∧
      ∀ r, replacement hu ows m = some r → ¬ xlinkHref <:+ r)
    (hclash : ∀ m ∈ FindAllString body, ∀ m' ∈ FindAllString body, m ≠ m' →
      replacement hu ows m ≠ some m') :
    rewriteGetCapabilities hu ows { read := .ok body, close := none } =
      .ok { Body := substSites (written hu ows) body
            ContentLength := (substSites (written hu ows) body).length
            HeaderContentLength := Itoa (substSites (written hu ows) body).length } := by
  have hF : FindAllString body = sitesOf (scanAux 0 body) := findAllAux_eq_sitesOf body 0
  have hS : Scanned (scanAux 0 body) := scanned_scanAux body 0 (Nat.zero_le _)
  have hflat : flatten (scanAux 0 body) = body := by
    rw [flatten_scanAux body 0 (Nat.zero_le _)]
    rfl
  obtain ⟨rep', h1, h2, _, h4⟩ := rewriteLoop_items hu ows (scanAux 0 body) hS
    (by rw [← hF]; exact hparse) (by rw [← hF]; exact hsuf) (by rw [← hF]; exact hclash)
    (FindAllString body) (by rw [hF]; exact fun m hm => hm) [] (by simp)
  rw [flatten_map_current_nil, hflat] at h1
  have hfinal : flatten ((scanAux 0 body).map (Item.map (current rep'))) =
      substSites (written hu ows) body := by
    unfold substSites
    rw [substAux_eq_flatten]
    apply flatten_map_congr
    intro s hs
    rw [← hF] at hs
    unfold current written
    cases hl : rep'.lookup s with
    | none => exact absurd hl (h4 s hs)
    | some r => rw [h2 s r hl]
  unfold rewriteGetCapabilities
  simp only [h1, hfinal]

theorem rewriteLoop_foldr (hu : Str → Str) (ows : Str) (ms : List Str) (doc : Str)
    (rep : List (Str × Str)) (doc' : Str) (rep' : List (Str × Str))
    (h : rewriteLoop hu ows ms doc rep = some (doc', rep')) :
    ∃ new : List (Str × Str), rep' = new ++ rep ∧
      doc' = new.foldr (fun e d => ReplaceAll d e.1 e.2) doc ∧
      ∀ e ∈ new, e.1 ∈ ms ∧ replacement hu ows e.1 = some e.2 := by
  induction ms generalizing doc rep with
  | nil =>
    simp only [rewriteLoop, Option.some.injEq, Prod.mk.injEq] at h
    obtain ⟨rfl, rfl⟩ := h
    exact ⟨[], rfl, rfl, by simp⟩
  | cons m ms ih =>
    rw [rewriteLoop] at h
    cases hl : rep.lookup m with
    | some r0 =>
      simp only [hl] at h
      obtain ⟨new, h1, h2, h3⟩ := ih doc rep h
      exact ⟨new, h1, h2, fun e he => ⟨List.mem_cons_of_mem _ (h3 e he).1, (h3 e he).2⟩⟩
    | none =>
      simp only [hl] at h
      cases hr : replacement hu ows m with
      | none => simp [hr] at h
      | some r =>
        simp only [hr] at h
        obtain ⟨new, h1, h2, h3⟩ := ih _ _ h
        refine ⟨new ++ [(m, r)], by simp [h1], ?_, ?_⟩
        · rw [h2, List.foldr_append]
          rfl
        · intro e he
          rcases List.mem_append.1 he with he | he
          · exact ⟨List.mem_cons_of_mem _ (h3 e he).1, (h3 e he).2⟩
          · simp only [List.mem_singleton] at he
            subst he
            exact ⟨List.mem_cons_self _ _, hr⟩

/-- C3: whenever `rewriteGetCapabilities` rewrites a document (with `html.UnescapeString`
inverting `html.EscapeString`), the body it installs is the body read after the calls
`strings.ReplaceAll(doc, m, replaced[m])` of the loop, one for each entry of the map
`replaced`; every entry has a match `m` as key and a string `xlink:href="<href>"` as
value, every match has its entry, and each such `<href>`, once HTML-unescaped, has a
query component without a parameter `MAP`, so that no URL parsed from it has a query
parameter `MAP`.  Where no match and no written attribute ends in `xlink:href="` and no
written attribute is another match, the body installed is the body read with these
attributes at the sites of the matches. -/
theorem rewriteGetCapabilities_hrefs_without_MAP (hu : Str → Str)
    (hinv : ∀ s, hu (htmlEscape s) = s) (ows body : Str) (resp : Rewritten)
    (h : rewriteGetCapabilities hu ows { read := .ok body, close := none } = .ok resp) :
    ∃ replaced : List (Str × Str),
      rewriteLoop hu ows (FindAllString body) body [] = some (resp.Body, replaced) ∧
      resp.Body = replaced.foldr (fun e d => ReplaceAll d e.1 e.2) body ∧
      (∀ e ∈ replaced, e.1 ∈ FindAllString body ∧ ∃ href,
        e.2 = str "xlink:href=\"" ++ href ++ str "\"" ∧
        (Query (rawQueryOf (hu href))).lookup (str "MAP") = none ∧
        ∀ u, Parse (hu href) = some u → (Query u.RawQuery).lookup (str "MAP") = none) ∧
      (∀ m ∈ FindAllString body, ∃ href,
        replaced.lookup m = some (str "xlink:href=\"" ++ href ++ str "\"") ∧
        written hu ows m = str "xlink:href=\"" ++ href ++ str "\"" ∧
        (Query (rawQueryOf (hu href))).lookup (str "MAP") = none ∧
        ∀ u, Parse (hu href) = some u → (Query u.RawQuery).lookup (str "MAP") = none) ∧
      ((∀ m ∈ FindAllString body, ¬ xlinkHref <:+ m ∧ ¬ xlinkHref <:+ written hu ows m) →
        (∀ m ∈ FindAllString body, ∀ m' ∈ FindAllString body, m ≠ m' → written hu ows m ≠ m') →
        resp.Body = substSites (written hu ows) body) := by
  have hfree : ∀ m r, replacement hu ows m = some r → ∃ href,
      r = str "xlink:href=\"" ++ href ++ str "\"" ∧
      (Query (rawQueryOf (hu href))).lookup (str "MAP") = none ∧
      ∀ u, Parse (hu href) = some u → (Query u.RawQuery).lookup (str "MAP") = none := by
    intro m r hrep
    obtain ⟨parsed, hp, rfl⟩ := replacement_eq hu ows m r hrep
    refine ⟨_, rfl, rewritten_query_no_MAP hu hinv parsed ows _ hp, ?_⟩
    intro u hu'
    rw [(Parse_spec _ u hu').1]
    exact rewritten_query_no_MAP hu hinv parsed ows _ hp
  have h0 := h
  unfold rewriteGetCapabilities at h
  simp only at h
  cases hl : rewriteLoop hu ows (FindAllString body) body [] with
  | none => simp [hl] at h
  | some p =>
    obtain ⟨doc', replaced⟩ := p
    simp only [hl, RewriteResult.ok.injEq] at h
    subst h
    obtain ⟨new, hn1, hn2, hn3⟩ := rewriteLoop_foldr hu ows _ _ _ _ _ hl
    rw [List.append_nil] at hn1
    subst hn1
    have hall := (rewriteLoop_replaced hu ows _ _ _ _ _ hl).2
    have hrepl : ∀ m ∈ FindAllString body, ∃ r, replaced.lookup m = some r ∧
        replacement hu ows m = some r := by
      intro m hm
      obtain ⟨r, hr1, hr2⟩ := hall m hm
      refine ⟨r, hr1, ?_⟩
      rcases hr2 with h2 | h2
      · simp at h2
      · exact h2
    refine ⟨replaced, rfl, hn2, ?_, ?_, ?_⟩
    · intro e he
      exact ⟨(hn3 e he).1, hfree _ _ (hn3 e he).2⟩
    · intro m hm
      obtain ⟨r, hr1, hr2⟩ := hrepl m hm
      obtain ⟨href, rfl, hq1, hq2⟩ := hfree m r hr2
      exact ⟨href, hr1, by simp [written, hr2], hq1, hq2⟩
    · intro hsuf hclash
      have hb := rewriteGetCapabilities_body hu ows body
        (by
          intro m hm
          obtain ⟨r, _, hr2⟩ := hrepl m hm
          rw [hr2]
          simp)
        (by
          intro m hm
          refine ⟨(hsuf m hm).1, ?_⟩
          intro r hr
          have := (hsuf m hm).2
          simpa [written, hr] using this)
        (by
          intro m hm m' hm' hne hr
          exact hclash m hm m' hm' hne (by simp [written, hr]))
      rw [hb] at h0
      simp only [RewriteResult.ok.injEq] at h0
      rw [← h0]

/-- C3 at the spec's scenario: the same internal href twice. -/
theorem rewriteGetCapabilities_hrefs_without_MAP_witness :
    ∃ replaced : List (Str × Str),
      rewriteLoop unescapeBasic (str "/api/map/ows/alice/parks")
        (FindAllString (str "<a xlink:href=\"http://internal:8080/wms?MAP=/data/alice/parks/parks.qgs&SERVICE=WMS\"/><b xlink:href=\"http://internal:8080/wms?MAP=/data/alice/parks/parks.qgs&SERVICE=WMS\"/>"))
        (str "<a xlink:href=\"http://internal:8080/wms?MAP=/data/alice/parks/parks.qgs&SERVICE=WMS\"/><b xlink:href=\"http://internal:8080/wms?MAP=/data/alice/parks/parks.qgs&SERVICE=WMS\"/>") [] =
        some (str "<a xlink:href=\"http://internal:8080/api/map/ows/alice/parks?SERVICE=WMS\"/><b xlink:href=\"http://internal:8080/api/map/ows/alice/parks?SERVICE=WMS\"/>", replaced) ∧
      str "<a xlink:href=\"http://internal:8080/api/map/ows/alice/parks?SERVICE=WMS\"/><b xlink:href=\"http://internal:8080/api/map/ows/alice/parks?SERVICE=WMS\"/>" =
        replaced.foldr (fun e d => ReplaceAll d e.1 e.2)
          (str "<a xlink:href=\"http://internal:8080/wms?MAP=/data/alice/parks/parks.qgs&SERVICE=WMS\"/><b xlink:href=\"http://internal:8080/wms?MAP=/data/alice/parks/parks.qgs&SERVICE=WMS\"/>") ∧
      (∀ e ∈ replaced,
        e.1 ∈ FindAllString (str "<a xlink:href=\"http://internal:8080/wms?MAP=/data/alice/parks/parks.qgs&SERVICE=WMS\"/><b xlink:href=\"http://internal:8080/wms?MAP=/data/alice/parks/parks.qgs&SERVICE=WMS\"/>") ∧
        ∃ href, e.2 = str "xlink:href=\"" ++ href ++ str "\"" ∧
          (Query (rawQueryOf (unescapeBasic href))).lookup (str "MAP") = none ∧
          ∀ u, Parse (unescapeBasic href) = some u → (Query u.RawQuery).lookup (str "MAP") = none) ∧
      (∀ m ∈ FindAllString (str "<a xlink:href=\"http://internal:8080/wms?MAP=/data/alice/parks/parks.qgs&SERVICE=WMS\"/><b xlink:href=\"http://internal:8080/wms?MAP=/data/alice/parks/parks.qgs&SERVICE=WMS\"/>"),
        ∃ href, replaced.lookup m = some (str "xlink:href=\"" ++ href ++ str "\"") ∧
          written unescapeBasic (str "/api/map/ows/alice/parks") m = str "xlink:href=\"" ++ href ++ str "\"" ∧
          (Query (rawQueryOf (unescapeBasic href))).lookup (str "MAP") = none ∧
          ∀ u, Parse (unescapeBasic href) = some u → (Query u.RawQuery).lookup (str "MAP") = none) ∧
      ((∀ m ∈ FindAllString (str "<a xlink:href=\"http://internal:8080/wms?MAP=/data/alice/parks/parks.qgs&SERVICE=WMS\"/><b xlink:href=\"http://internal:8080/wms?MAP=/data/alice/parks/parks.qgs&SERVICE=WMS\"/>"),
          ¬ xlinkHref <:+ m ∧ ¬ xlinkHref <:+ written unescapeBasic (str "/api/map/ows/alice/parks") m) →
        (∀ m ∈ FindAllString (str "<a xlink:href=\"http://internal:8080/wms?MAP=/data/alice/parks/parks.qgs&SERVICE=WMS\"/><b xlink:href=\"http://internal:8080/wms?MAP=/data/alice/parks/parks.qgs&SERVICE=WMS\"/>"),
          ∀ m' ∈ FindAllString (str "<a xlink:href=\"http://internal:8080/wms?MAP=/data/alice/parks/parks.qgs&SERVICE=WMS\"/><b xlink:href=\"http://internal:8080/wms?MAP=/data/alice/parks/parks.qgs&SERVICE=WMS\"/>"),
          m ≠ m' → written unescapeBasic (str "/api/map/ows/alice/parks") m ≠ m') →
        str "<a xlink:href=\"http://internal:8080/api/map/ows/alice/parks?SERVICE=WMS\"/><b xlink:href=\"http://internal:8080/api/map/ows/alice/parks?SERVICE=WMS\"/>" =
          substSites (written unescapeBasic (str "/api/map/ows/alice/parks"))
            (str "<a xlink:href=\"http://internal:8080/wms?MAP=/data/alice/parks/parks.qgs&SERVICE=WMS\"/><b xlink:href=\"http://internal:8080/wms?MAP=/data/alice/parks/parks.qgs&SERVICE=WMS\"/>")) :=
  rewriteGetCapabilities_hrefs_without_MAP unescapeBasic unescapeBasic_htmlEscape
    (str "/api/map/ows/alice/parks")
    (str "<a xlink:href=\"http://internal:8080/wms?MAP=/data/alice/parks/parks.qgs&SERVICE=WMS\"/><b xlink:href=\"http://internal:8080/wms?MAP=/data/alice/parks/parks.qgs&SERVICE=WMS\"/>")
    (Rewritten.mk (str "<a xlink:href=\"http://internal:8080/api/map/ows/alice/parks?SERVICE=WMS\"/><b xlink:href=\"http://internal:8080/api/map/ows/alice/parks?SERVICE=WMS\"/>")
      (str "<a xlink:href=\"http://internal:8080/api/map/ows/alice/parks?SERVICE=WMS\"/><b xlink:href=\"http://internal:8080/api/map/ows/alice/parks?SERVICE=WMS\"/>").length
      (Itoa (str "<a xlink:href=\"http://internal:8080/api/map/ows/alice/parks?SERVICE=WMS\"/><b xlink:href=\"http://internal:8080/api/map/ows/alice/parks?SERVICE=WMS\"/>").length))
    (by decide!)

/-- C6, as stated, fails when the settings hold an entry for the empty layer ID: the
name `ns:Ghost`, whose local name is no key of `LayerNameToID`, is looked up under the
zero-value ID `""`, resolves to a granting permission, and a transaction that deletes
from it is handed to the reverse proxy. -/
theorem getLayerPermissions_unknown_layer_granted :
    List.lookup (lastPart (splitByte (B ':') (str "ns:Ghost")))
        [(str "Roads", str "roads_1"), (str "Parcels", str "parcels_2")] = none ∧
    (getLayerPermissions
        { LayerNameToID := [(str "Roads", str "roads_1"), (str "Parcels", str "parcels_2")] }
        { Layers := [([], fun _ => { Insert := true, Update := true, Delete := true }),
                     (str "roads_1", fun _ => { Insert := false, Update := false, Delete := false })] }
        { Username := str "alice" } [] (str "ns:Ghost")).1 =
      { Insert := true, Update := true, Delete := true } ∧
    (handleMapOws emptyIdEnv (sampleContext (str "SERVICE=WFS")
        (str "<Transaction><Delete typeName=\"ns:Ghost\"/></Transaction>"))).result =
      .served .reverseProxy
        { Path := str "/api/map/ows/alice/parks"
          RawQuery := str "MAP=%2Fpublish%2Falice%2Fparks%2Fparks.qgs&SERVICE=WFS"
          Header := []
          Body := .buffer (str "<Transaction><Delete typeName=\"ns:Ghost\"/></Transaction>") } := by
  decide!

end Gisquick
